import Mathlib

/-!
# log2gelf: a shallow embedding of `main.go` and `unescape.go`

Go values are rendered as follows.

* `[]byte` and `string` are `List UInt8` (a Go string is a byte sequence).
* `int64`, `int32` are `Int`, `uint64` is `Nat`; the range of the machine type is
  stated where it matters.
* `float64` is carried as its IEEE-754 bit pattern; no arithmetic is done on it.
* `interface{}` is the type `Value` of the dynamic values the program inspects.
* A Go function that can panic returns an explicit `abort` outcome.
* Calls into libraries that are not part of the repository (`json.Unmarshal`,
  `strconv.ParseFloat`) are fields of the structure `Lib`, and the order in which a
  `range` statement walks a map is an explicit argument.
* A send on an unbuffered channel completes only while the other end still receives; the
  number of values the other end takes is an explicit argument.
-/

namespace Log2Gelf

/-! ## Strings and bytes -/

/-- A Go `string` or `[]byte`: a finite sequence of bytes. -/
abbrev GoString := List UInt8

/-- The bytes of a string literal of the source (UTF-8, as the Go compiler stores it). -/
def bytes (s : String) : GoString := s.data.flatMap String.utf8EncodeChar

deriving instance DecidableEq for Except

/-! ## `unescape.go` -/

/-- Why a run of `Unescape` did not return a buffer. -/
inductive Fault where
  /-- A Go run-time panic: index out of range. -/
  | indexOutOfRange
  /-- The model ran out of fuel (never happens with the fuel `Unescape` supplies). -/
  | outOfFuel
deriving DecidableEq, Repr

/-- The buffer `append(input[:i], append([]byte{'\\'}, input[i:]...)...)`: a backslash is
inserted in front of position `i`. -/
def insertBackslash (input : GoString) (i : Nat) : GoString :=
  input.take i ++ 0x5c :: input.drop i

/-- Value of one hexadecimal digit, as `strconv.ParseUint` with base 16 reads it. -/
def hexDigit (c : UInt8) : Option Nat :=
  if 0x30 ≤ c ∧ c ≤ 0x39 then some (c.toNat - 0x30)
  else if 0x61 ≤ c ∧ c ≤ 0x66 then some (c.toNat - 0x61 + 10)
  else if 0x41 ≤ c ∧ c ≤ 0x46 then some (c.toNat - 0x41 + 10)
  else none

/-- The call `strconv.ParseUint(string(input[i+2:i+4]), 16, 8)` on the two bytes `c2 c3`:
with an explicit base 16 no prefix, sign or underscore is accepted, and two hex digits
always fit in 8 bits, so the call fails exactly when one byte is not a hex digit. -/
def parseUintHex8 (c2 c3 : UInt8) : Option Nat :=
  match hexDigit c2, hexDigit c3 with
  | some h, some l => some (16 * h + l)
  | _, _ => none

/-- The `for` loop of `Unescape`, started at index `i` on the buffer `input`.
One unit of fuel is spent per iteration. Every index expression of the source is
performed with a checked access, which yields `Fault.indexOutOfRange` where Go panics. -/
def Unescape.loop : Nat → GoString → Nat → Except Fault GoString
  | 0, input, i => if i + 3 < input.length then .error .outOfFuel else .ok input
  | fuel + 1, input, i =>
    -- loop condition `i < len(input)-3`, on Go's signed `int`
    if i + 3 < input.length then
      match input[i]? with
      | none => .error .indexOutOfRange
      | some c =>
        if c = 0x22 then -- case '"'
          -- `input[i-1]`: the index is -1 when `i` is 0
          if i = 0 then .error .indexOutOfRange
          else
            match input[i - 1]? with
            | none => .error .indexOutOfRange
            | some p =>
              if p = 0x5c then
                -- insert at `i-1`, then `i++` and the loop's own `i++`
                Unescape.loop fuel (insertBackslash input (i - 1)) (i + 1 + 1)
              else Unescape.loop fuel input (i + 1)
        else if c = 0x5c then -- case '\\'
          match input[i + 1]? with
          | none => .error .indexOutOfRange
          | some c1 =>
            if c1 = 0x5c then Unescape.loop fuel input (i + 1 + 1)
            else if c1 = 0x22 then Unescape.loop fuel input (i + 1 + 1)
            else if c1 = 0x78 then -- case 'x'
              match input[i + 2]?, input[i + 3]? with
              | some c2, some c3 =>
                if (c2 = 0x30 ∨ c2 = 0x31) ∨ (c2 = 0x32 ∧ c3 = 0x32) ∨
                    (c2 = 0x35 ∧ c3 = 0x43) then
                  Unescape.loop fuel (insertBackslash input i) (i + 1 + 1)
                else
                  match parseUintHex8 c2 c3 with
                  | none => Unescape.loop fuel (insertBackslash input i) (i + 1 + 1)
                  | some val =>
                    -- `input[i] = byte(val)`, then `append(input[:i+1], input[i+4:]...)`
                    Unescape.loop fuel
                      ((input.set i (UInt8.ofNat val)).take (i + 1) ++ input.drop (i + 4))
                      (i + 1)
              | _, _ => .error .indexOutOfRange
            else Unescape.loop fuel (insertBackslash input i) (i + 1 + 1)
        else Unescape.loop fuel input (i + 1)
    else .ok input

/-- The function `Unescape` of `unescape.go`. The distance `len(input) - 3 - i` shrinks on
every iteration, so `len(input)` units of fuel are enough. -/
def Unescape (input : GoString) : Except Fault GoString :=
  Unescape.loop input.length input 0

/-- The loop of `Unescape` seen from its cursor: the first argument holds the bytes from
the index `i` on, and `doneRev` the bytes in front of `i`, last byte first. The loop runs
while at least four bytes are left. -/
def Unescape.scan : GoString → GoString → Except Fault GoString
  | c :: c1 :: c2 :: c3 :: rest, doneRev =>
      if c = 0x22 then
        match doneRev with
        | [] => .error .indexOutOfRange
        | p :: before =>
          if p = 0x5c then Unescape.scan (c1 :: c2 :: c3 :: rest) (c :: p :: 0x5c :: before)
          else Unescape.scan (c1 :: c2 :: c3 :: rest) (c :: doneRev)
      else if c = 0x5c then
        if c1 = 0x5c then Unescape.scan (c2 :: c3 :: rest) (c1 :: c :: doneRev)
        else if c1 = 0x22 then Unescape.scan (c2 :: c3 :: rest) (c1 :: c :: doneRev)
        else if c1 = 0x78 then
          if (c2 = 0x30 ∨ c2 = 0x31) ∨ (c2 = 0x32 ∧ c3 = 0x32) ∨ (c2 = 0x35 ∧ c3 = 0x43) then
            Unescape.scan (c1 :: c2 :: c3 :: rest) (0x5c :: 0x5c :: doneRev)
          else
            match parseUintHex8 c2 c3 with
            | none => Unescape.scan (c1 :: c2 :: c3 :: rest) (0x5c :: 0x5c :: doneRev)
            | some val => Unescape.scan rest (UInt8.ofNat val :: doneRev)
        else Unescape.scan (c1 :: c2 :: c3 :: rest) (0x5c :: 0x5c :: doneRev)
      else Unescape.scan (c1 :: c2 :: c3 :: rest) (c :: doneRev)
  | todo, doneRev => .ok (doneRev.reverse ++ todo)

/-! ## Inputs of `Unescape` as sequences of pieces -/

/-- A piece of a log line: a single byte, or the four bytes `\xHL` of a hex escape. -/
inductive Piece where
  | byte (b : UInt8)
  | escape (h l : UInt8)
deriving DecidableEq, Repr

/-- The bytes of a piece as they stand in the input. -/
def Piece.render : Piece → GoString
  | .byte b => [b]
  | .escape h l => [0x5c, 0x78, h, l]

/-- The input made of a sequence of pieces. -/
def renderPieces (ps : List Piece) : GoString := ps.flatMap Piece.render

/-- The value `HL` of two hex digits. -/
def hexValue (h l : UInt8) : Nat := 16 * (hexDigit h).getD 0 + (hexDigit l).getD 0

/-- A piece with its escape replaced by the single byte of value `HL`. -/
def Piece.decoded : Piece → GoString
  | .byte b => [b]
  | .escape h l => [UInt8.ofNat (hexValue h l)]

/-- The input with every escape replaced by its byte. -/
def decodedPieces (ps : List Piece) : GoString := ps.flatMap Piece.decoded

/-- The pieces of an input, read from the left: a backslash followed by `x` and two more
bytes is an escape, every other byte stands for itself. -/
def toPieces : GoString → List Piece
  | c :: x :: h :: l :: rest =>
    if c = 0x5c ∧ x = 0x78 then .escape h l :: toPieces rest
    else .byte c :: toPieces (x :: h :: l :: rest)
  | c :: rest => .byte c :: toPieces rest
  | [] => []

/-- A piece of an input all of whose backslashes start a hex escape to be decoded: a byte
other than the backslash, or an escape of two hex digits whose first digit is neither `0`
nor `1` and whose value is neither 0x22 nor 0x5C. -/
def Piece.decodable : Piece → Bool
  | .byte b => decide (b ≠ 0x5c)
  | .escape h l =>
    (hexDigit h).isSome && (hexDigit l).isSome && decide (h ≠ 0x30) && decide (h ≠ 0x31) &&
      decide (hexValue h l ≠ 0x22) && decide (hexValue h l ≠ 0x5c)

/-- A piece of an input all of whose backslashes start a hex escape to be kept: a byte
other than the backslash, or an escape of two hex digits that start with `0` or `1` or are
exactly `22` or exactly `5C`. -/
def Piece.kept : Piece → Bool
  | .byte b => decide (b ≠ 0x5c)
  | .escape h l =>
    (hexDigit h).isSome && (hexDigit l).isSome &&
      (decide (h = 0x30) || decide (h = 0x31) || (decide (h = 0x32) && decide (l = 0x32)) ||
        (decide (h = 0x35) && decide (l = 0x43)))

/-- A buffer with every backslash doubled and nothing else changed. -/
def doubleBackslashes (s : GoString) : GoString :=
  s.flatMap (fun c => if c = 0x5c then [0x5c, 0x5c] else [c])

/-! ## Dynamic values, maps and the GELF message -/

/-- A Go `float64`, carried as its IEEE-754 bit pattern. -/
structure Float64 where
  bits : Nat
deriving DecidableEq, Repr

/-- The `float64` constant `0.0`. -/
def Float64.zero : Float64 := ⟨0⟩

/-- A Go `interface{}` value, restricted to the dynamic types the program inspects.
`json.Unmarshal` into an `interface{}` produces `nil`, `bool`, `float64` (for every JSON
number), `string`, `[]interface{}` and `map[string]interface{}`; `int32` is the type named
by the type switch on `level`. -/
inductive Value where
  | nil
  | bool (b : Bool)
  | float64 (f : Float64)
  | string (s : GoString)
  | int32 (n : Int)
  | slice (xs : List Value)
  | map (m : List (GoString × Value))

/-- A Go `map[string]interface{}`, as an association list read at the first match. -/
abbrev GoMap := List (GoString × Value)

/-- The map read `m[k]` with the comma-ok flag: `none` when the key is absent. -/
def mapGet : GoMap → GoString → Option Value
  | [], _ => none
  | (k', v) :: m, k => if k' = k then some v else mapGet m k

/-- The statement `delete(m, k)`. -/
def mapDelete (m : GoMap) (k : GoString) : GoMap :=
  m.filter (fun e => decide (e.1 ≠ k))

/-- The statement `m[k] = v`. -/
def mapSet (m : GoMap) (k : GoString) (v : Value) : GoMap :=
  (k, v) :: mapDelete m k

/-- The fields of `gelf.Message` that `main.go` fills in. -/
structure Message where
  Version : GoString
  Host : GoString
  Short : GoString
  TimeUnix : Float64
  Level : Int
  Extra : GoMap

/-- Result of a builder with the Go signature `(gm gelf.Message, err error)`. -/
inductive Outcome (α : Type) where
  /-- Normal return with `err == nil`. -/
  | ok (a : α)
  /-- Normal return with `err != nil`. -/
  | error
  /-- Run-time panic (failed type assertion, index out of range). -/
  | abort

/-- The library calls of `main.go` whose code is outside the repository. -/
structure Lib where
  /-- The call `json.Unmarshal(message, &emptyinterface)`: the decoded value, or `none`
  when the call returns an error. -/
  jsonUnmarshal : GoString → Option Value
  /-- The value returned by `strconv.ParseFloat(s, 64)` (its error is discarded by the
  program). -/
  parseFloat : GoString → Float64

/-! ## `main.go`: the message builders -/

/-- The map literal `gelfReservedField`, as the list of its keys (all mapped to `true`). -/
def gelfReservedKeys : List GoString :=
  [bytes "_id", bytes "_ttl", bytes "_source", bytes "_all", bytes "_index", bytes "_type",
   bytes "_score"]

/-- The read `gelfReservedField[k]`: `false`, the zero value, for a missing key. -/
def gelfReservedField (k : GoString) : Bool := decide (k ∈ gelfReservedKeys)

/-- The loop `for k, v := range jm`. `order` is the sequence of keys the `range` statement
produces; a key that is no longer in the map when its turn comes is not produced. -/
def renameReserved : List GoString → GoMap → GoMap
  | [], jm => jm
  | k :: rest, jm =>
    match mapGet jm k with
    | none => renameReserved rest jm
    | some v =>
      if gelfReservedField k then
        renameReserved rest (mapDelete (mapSet jm (bytes "renamed" ++ k) v) k)
      else if gelfReservedField (bytes "_" ++ k) then
        renameReserved rest (mapDelete (mapSet jm (bytes "renamed_" ++ k) v) k)
      else renameReserved rest jm

/-- The stems of the reserved names: each is reserved with and without a leading `_`. -/
def reservedStems : List GoString :=
  [bytes "id", bytes "ttl", bytes "source", bytes "all", bytes "index", bytes "type",
   bytes "score"]

/-- The key a reserved field is moved to by the loop of `buildGelfMessageJSON`, `none` for
a key the loop leaves alone. -/
def renameTarget (k : GoString) : Option GoString :=
  if gelfReservedField k then some (bytes "renamed" ++ k)
  else if gelfReservedField (bytes "_" ++ k) then some (bytes "renamed_" ++ k)
  else none

/-- The keys `buildGelfMessageJSON` reads into the fixed fields of the message. -/
def pulledKeys : List GoString :=
  [bytes "host", bytes "short_message", bytes "timestamp", bytes "level", bytes "version"]

/-- The type assertion `v.(string)` without the comma-ok form: it panics on any other
dynamic type. -/
def assertString : Value → Outcome GoString
  | .string s => .ok s
  | _ => .abort

/-- The read of an optional string field: `if _, ok := jm[key]; ok { x = jm[key].(string) }`
with `dflt` the initial value of `x`. -/
def stringField (jm : GoMap) (key dflt : GoString) : Outcome GoString :=
  match mapGet jm key with
  | some v => assertString v
  | none => .ok dflt

/-- The map literal `syslogLevelMapping`. -/
def syslogLevelMapping : List (GoString × Int) :=
  [(bytes "emerg", 0), (bytes "alert", 1), (bytes "crit", 2), (bytes "critical", 2),
   (bytes "error", 3), (bytes "warn", 4), (bytes "warning", 4), (bytes "notice", 5),
   (bytes "info", 6), (bytes "debug", 7)]

/-- The read `syslogLevelMapping[s]`: `0`, the zero value of `int32`, for a missing key. -/
def syslogLevel (s : GoString) : Int := (syslogLevelMapping.lookup s).getD 0

/-- The type switch on `jm["timestamp"]`. -/
def timestampField (lib : Lib) (jm : GoMap) : Float64 :=
  match mapGet jm (bytes "timestamp") with
  | some (.float64 tsval) => tsval
  | some (.string tsval) => lib.parseFloat tsval
  | _ => Float64.zero

/-- The type switch on `jm["level"]`, with the initial value `6`. -/
def levelField (jm : GoMap) : Int :=
  match mapGet jm (bytes "level") with
  | some (.int32 tsval) => tsval
  | some (.string tsval) => syslogLevel tsval
  | _ => 6

/-- The function `buildGelfMessageJSON`. -/
def buildGelfMessageJSON (lib : Lib) (order : List GoString) (message : GoString) :
    Outcome Message :=
  match lib.jsonUnmarshal message with
  | none => .error
  | some emptyinterface =>
    -- `jm := emptyinterface.(map[string]interface{})`
    match emptyinterface with
    | .map jm0 =>
      let jm := renameReserved order jm0
      match stringField jm (bytes "host") (bytes "unknown_amqp") with
      | .ok gelfHostname =>
        match stringField jm (bytes "short_message") [] with
        | .ok gelfShortMsg =>
          let gelfTimestamp := timestampField lib jm
          let gelfLevel := levelField jm
          match stringField jm (bytes "version") (bytes "1.1") with
          | .ok gelfVersion =>
            .ok { Version := gelfVersion, Host := gelfHostname, Short := gelfShortMsg,
                  TimeUnix := gelfTimestamp, Level := gelfLevel, Extra := jm }
          | _ => .abort
        | _ => .abort
      | _ => .abort
    | _ => .abort

/-- The function `buildGelfMessageText`. -/
def buildGelfMessageText (message : GoString) : Outcome Message :=
  .ok { Version := bytes "1.1", Host := bytes "unknown", Short := message,
        TimeUnix := Float64.zero, Level := 6, Extra := [] }

/-- UTF-8 encodings of the runes for which `unicode.IsSpace` holds: tab, newline, vertical
tab, form feed, carriage return, space, U+0085, U+00A0, U+1680, U+2000 to U+200A, U+2028,
U+2029, U+202F, U+205F and U+3000. -/
def spaceEncodings : List GoString :=
  [[0x09], [0x0a], [0x0b], [0x0c], [0x0d], [0x20], [0xc2, 0x85], [0xc2, 0xa0],
   [0xe1, 0x9a, 0x80], [0xe2, 0x80, 0x80], [0xe2, 0x80, 0x81], [0xe2, 0x80, 0x82],
   [0xe2, 0x80, 0x83], [0xe2, 0x80, 0x84], [0xe2, 0x80, 0x85], [0xe2, 0x80, 0x86],
   [0xe2, 0x80, 0x87], [0xe2, 0x80, 0x88], [0xe2, 0x80, 0x89], [0xe2, 0x80, 0x8a],
   [0xe2, 0x80, 0xa8], [0xe2, 0x80, 0xa9], [0xe2, 0x80, 0xaf], [0xe2, 0x81, 0x9f],
   [0xe3, 0x80, 0x80]]

/-- Removal of the leading white-space runes, one per unit of fuel. -/
def trimLeftSpace : Nat → GoString → GoString
  | 0, s => s
  | fuel + 1, s =>
    match spaceEncodings.find? (fun e => e.isPrefixOf s) with
    | none => s
    | some e => trimLeftSpace fuel (s.drop e.length)

/-- Removal of the trailing white-space runes, one per unit of fuel. -/
def trimRightSpace : Nat → GoString → GoString
  | 0, s => s
  | fuel + 1, s =>
    match spaceEncodings.find? (fun e => e.isSuffixOf s) with
    | none => s
    | some e => trimRightSpace fuel (s.take (s.length - e.length))

/-- The library function `bytes.TrimSpace`: the slice without its leading and trailing
white space, as defined by Unicode. Each step removes at least one byte, so the length of
the slice is enough fuel. -/
def TrimSpace (s : GoString) : GoString :=
  let l := trimLeftSpace s.length s
  trimRightSpace l.length l

/-- The function `buildGelfMessage`. -/
def buildGelfMessage (lib : Lib) (order : List GoString) (message : GoString) :
    Outcome Message :=
  let message := TrimSpace message
  -- `message[0] == '{' && message[len(message)-1] == '}'`
  match message[0]? with
  | none => .abort
  | some first =>
    if first = 0x7b then
      match message[message.length - 1]? with
      | none => .abort
      | some last =>
        if last = 0x7d then buildGelfMessageJSON lib order message
        else buildGelfMessageText message
    else buildGelfMessageText message

/-- The builder as the specification words it: the escape repair runs over the raw line
first, and the repaired line is then trimmed, classified and built. -/
def specBuild (lib : Lib) (order : List GoString) (rawLine : GoString) : Outcome Message :=
  match Unescape rawLine with
  | .ok repaired => buildGelfMessage lib order repaired
  | .error _ => .abort

/-! ## `main.go`: the state file -/

/-- Decimal digits of `n`, most significant first, as `fmt` prints an unsigned integer
with `%d`; one unit of fuel per digit. -/
def decimalDigits : Nat → Nat → GoString
  | 0, _ => []
  | fuel + 1, n =>
    if n < 10 then [UInt8.ofNat (0x30 + n)]
    else decimalDigits fuel (n / 10) ++ [UInt8.ofNat (0x30 + n % 10)]

/-- The text `fmt.Sprintf("%d", n)` for an unsigned `n`. -/
def fmtUint (n : Nat) : GoString := decimalDigits (n + 1) n

/-- The text `fmt.Sprintf("%d", i)` for a signed `i`. -/
def fmtInt (i : Int) : GoString :=
  if i < 0 then 0x2d :: fmtUint i.natAbs else fmtUint i.natAbs

/-- The function `writeStateFile`: the result is the `data` handed to `ioutil.WriteFile`,
that is `fmt.Sprintf("Offset %d Time %d Inode %d\n", offset, now, inode)` with `now` the
value of `time.Now().UTC().Unix()`. -/
def writeStateFile (now : Int) (inode : Nat) (offset : Int) : GoString :=
  bytes "Offset " ++ fmtInt offset ++ bytes " Time " ++ fmtInt now ++ bytes " Inode " ++
    fmtUint inode ++ bytes "\n"

/-- The white-space test of package `fmt` on an ASCII byte: tab, newline, vertical tab,
form feed, carriage return and space. -/
def isSpace (c : UInt8) : Bool := (decide (0x09 ≤ c) && decide (c ≤ 0x0d)) || decide (c = 0x20)

/-- Consumes the white space other than newline at the head of the input. -/
def dropSpacesNoNewline : GoString → GoString
  | [] => []
  | c :: rest =>
    if isSpace c && decide (c ≠ 0x0a) then dropSpacesNoNewline rest else c :: rest

/-- A space of the format that is not next to a newline: it matches one or more spaces of
the input (none of them a newline in first position), or the end of the input. `none` is
a scan error. -/
def advanceSpace : GoString → Option GoString
  | [] => some []
  | c :: rest =>
    if !isSpace c then none
    else if c = 0x0a then none
    else some (dropSpacesNoNewline rest)

/-- Literal text of the format: every byte must be the next byte of the input. -/
def advanceLiteral : GoString → GoString → Option GoString
  | [], input => some input
  | _ :: _, [] => none
  | f :: fs, c :: cs => if f = c then advanceLiteral fs cs else none

/-- The newline that ends the format: it matches zero or more spaces followed by a newline
or by the end of the input. -/
def advanceNewline (input : GoString) : Option GoString :=
  match dropSpacesNoNewline input with
  | [] => some []
  | c :: rest => if c = 0x0a then some rest else none

/-- The method `SkipSpace` as `Sscanf` runs it before a verb: spaces are skipped and a
newline is an error. -/
def skipSpace : GoString → Option GoString
  | [] => some []
  | c :: rest =>
    if c = 0x0a then none
    else if isSpace c then skipSpace rest
    else some (c :: rest)

/-- The bytes a decimal token is made of: `0123456789_`. -/
def isDigitOrUnderscore (c : UInt8) : Bool :=
  (decide (0x30 ≤ c) && decide (c ≤ 0x39)) || decide (c = 0x5f)

/-- The value of a token in base 10; an underscore is a syntax error of
`strconv.ParseInt` and `strconv.ParseUint` when the base is given. -/
def parseDecimal (tok : GoString) : Option Nat :=
  if tok.all (fun c => decide (0x30 ≤ c) && decide (c ≤ 0x39)) then
    some (tok.foldl (fun a d => 10 * a + (d.toNat - 0x30)) 0)
  else none

/-- The verb `%d` with an `*int64` operand: leading spaces, an optional sign, a token of
digits, which must be in the range of `int64`. The result is the value and the rest of
the input; `none` is a scan error. -/
def scanInt (input : GoString) : Option (Int × GoString) :=
  match skipSpace input with
  | none => none
  | some [] => none
  | some (c :: rest) =>
    let neg := decide (c = 0x2d)
    let afterSign := if c = 0x2b ∨ c = 0x2d then rest else c :: rest
    let tok := afterSign.takeWhile isDigitOrUnderscore
    if tok = [] then none
    else
      match parseDecimal tok with
      | none => none
      | some un =>
        let v : Int := if neg then -(un : Int) else (un : Int)
        if -(2 : Int) ^ 63 ≤ v ∧ v ≤ (2 : Int) ^ 63 - 1 then
          some (v, afterSign.dropWhile isDigitOrUnderscore)
        else none

/-- The verb `%d` with a `*uint64` operand: leading spaces, a token of digits without
sign, which must be in the range of `uint64`. -/
def scanUint (input : GoString) : Option (Nat × GoString) :=
  match skipSpace input with
  | none => none
  | some [] => none
  | some afterSpace =>
    let tok := afterSpace.takeWhile isDigitOrUnderscore
    if tok = [] then none
    else
      match parseDecimal tok with
      | none => none
      | some un =>
        if un ≤ 2 ^ 64 - 1 then some (un, afterSpace.dropWhile isDigitOrUnderscore)
        else none

/-- What the call `fmt.Sscanf(str, "Offset %d Time %d Inode %d\n", &offset, &time, &inode)`
leaves behind: the count `n`, whether `err != nil`, and the three operands, each of which
is written as soon as its verb has been scanned. -/
structure Scanned where
  n : Nat
  err : Bool
  offset : Int
  time : Int
  inode : Nat
deriving DecidableEq, Repr

/-- The call `fmt.Sscanf(str, "Offset %d Time %d Inode %d\n", &offset, &time, &inode)` of
`readStateFile`, for a state line of ASCII bytes; `offset0`, `time0` and `inode0` are the
operands before the call. -/
def sscanfState (str : GoString) (offset0 time0 : Int) (inode0 : Nat) : Scanned :=
  match ((advanceLiteral (bytes "Offset") str).bind advanceSpace).bind scanInt with
  | none => ⟨0, true, offset0, time0, inode0⟩
  | some (offset, s1) =>
    match (((advanceSpace s1).bind (advanceLiteral (bytes "Time"))).bind
        advanceSpace).bind scanInt with
    | none => ⟨1, true, offset, time0, inode0⟩
    | some (time, s2) =>
      match (((advanceSpace s2).bind (advanceLiteral (bytes "Inode"))).bind
          advanceSpace).bind scanUint with
      | none => ⟨2, true, offset, time, inode0⟩
      | some (inode, s3) =>
        match advanceNewline s3 with
        | none => ⟨3, true, offset, time, inode⟩
        | some _ => ⟨3, false, offset, time, inode⟩

/-- The function `readStateFile`. `stateFile` is the outcome of `ioutil.ReadFile(statefile)`:
the content, or `none` when the read fails. The result is the named return value `offset`,
whose address is the first operand of `Sscanf`, so every bare `return` after the call
yields what `Sscanf` left in it. -/
def readStateFile (stateFile : Option GoString) (currentInode : Nat) : Int :=
  let offset : Int := 0
  match stateFile with
  | none => offset
  | some stateline =>
    let r := sscanfState stateline offset 0 0
    if r.n ≠ 3 ∨ r.err = true then r.offset
    else if currentInode ≠ r.inode then r.offset
    else r.offset

/-! ## `main.go`: the transport writer and the shutdown decision -/

/-- Where the goroutine `writeLogsToUdp` stands once the lines queued so far are used up. -/
inductive SinkState where
  /-- In `range queue`, waiting for the next line of a queue that is still open. -/
  | waiting
  /-- Returned, after the queue was closed and the final report was taken from `done`. -/
  | returned
  /-- Blocked for good in a send on `done` that nobody receives. -/
  | blockedOnDone
  /-- Stopped by a panic of `buildGelfMessage`. -/
  | panicked
deriving DecidableEq, Repr

/-- What a run of `writeLogsToUdp` has done: the envelopes handed to
`gelfWriter.WriteMessage`, in order, the number of reports delivered on `done`, and the
place where the goroutine stands. -/
structure SinkRun where
  sent : List Message
  reports : Nat
  state : SinkState

/-- A send `done <- err` on the unbuffered channel, followed by the rest of the run: it
completes when the other end still receives (`receives` counts the values the other end
will take), and blocks for good otherwise. -/
def sendDone (receives : Nat) (rest : Nat → SinkRun) : SinkRun :=
  match receives with
  | 0 => { sent := [], reports := 0, state := .blockedOnDone }
  | r + 1 =>
    let run := rest r
    { sent := run.sent, reports := run.reports + 1, state := run.state }

/-- The loop `for line := range queue` of `writeLogsToUdp`. Each queued line comes with
the order in which `range` walks its decoded object. `sendErr` lists, call by call, whether
`WriteMessage` reports an error (no error once the list is used up), `receives` is the
number of values the other end of `done` will take, and `closed` tells whether the queue
is closed after the last line. -/
def writeLogsToUdp.loop (lib : Lib) (closed : Bool) :
    List (GoString × List GoString) → List Bool → Nat → SinkRun
  | [], _, receives =>
    if closed then
      -- `done <- fmt.Errorf("done")`, then `return`
      sendDone receives (fun _ => { sent := [], reports := 0, state := .returned })
    else { sent := [], reports := 0, state := .waiting }
  | (line, order) :: queue, sendErr, receives =>
    match buildGelfMessage lib order line with
    | .abort => { sent := [], reports := 0, state := .panicked }
    | .error => writeLogsToUdp.loop lib closed queue sendErr receives
    | .ok gm =>
      -- `err = gelfWriter.WriteMessage(&gm)`
      if sendErr.headD false then
        let run := sendDone receives (writeLogsToUdp.loop lib closed queue sendErr.tail)
        { sent := gm :: run.sent, reports := run.reports, state := run.state }
      else
        let run := writeLogsToUdp.loop lib closed queue sendErr.tail receives
        { sent := gm :: run.sent, reports := run.reports, state := run.state }

/-- The function `writeLogsToUdp`. `newWriterErr` tells whether `gelf.NewWriter` fails, in
which case the function reports on `done` and returns without reading the queue. -/
def writeLogsToUdp (lib : Lib) (newWriterErr closed : Bool)
    (queue : List (GoString × List GoString)) (sendErr : List Bool) (receives : Nat) :
    SinkRun :=
  if newWriterErr then
    sendDone receives (fun _ => { sent := [], reports := 0, state := .returned })
  else writeLogsToUdp.loop lib closed queue sendErr receives

/-- The envelopes `buildGelfMessage` returns for the queued lines, in order, the lines
whose build returns an error left out. -/
def builtEnvelopes (lib : Lib) (queue : List (GoString × List GoString)) : List Message :=
  queue.filterMap (fun q =>
    match buildGelfMessage lib q.2 q.1 with
    | .ok gm => some gm
    | _ => none)

/-- The channel `main` receives its first shutdown event from. -/
inductive ShutdownEvent where
  /-- A value on `sigShutdown`: an external signal. -/
  | sigShutdown
  /-- A value on `fileShutdown`: the file reader has stopped. -/
  | fileShutdown
  /-- A value on `udpShutdown`: the transport writer has reported. -/
  | udpShutdown
deriving DecidableEq, Repr

/-- The `select` statement of `main` and what follows it: the values `main` itself sends
on `savestate` between the receipt of the first shutdown event and its return. (The
periodic sends of the ticker goroutine are not requests of `main`.) -/
def main (first : ShutdownEvent) : List Bool :=
  match first with
  | .sigShutdown => []
  | .fileShutdown => []
  | .udpShutdown => [true]

/-! ## Example lines and their decoded values -/

/-- A library whose JSON decoder knows the one message `message`, which it decodes to `v`;
its float parser is not consulted by the examples that use it. -/
def libDecoding (message : GoString) (v : Value) : Lib :=
  { jsonUnmarshal := fun m => if m = message then some v else none
    parseFloat := fun _ => Float64.zero }

/-- The line `{"level":"fatal"}`. -/
def lineLevelFatal : GoString := bytes "\x7b\"level\":\"fatal\"\x7d"

/-- The value `json.Unmarshal` decodes `{"level":"fatal"}` to. -/
def objLevelFatal : GoMap := [(bytes "level", .string (bytes "fatal"))]

/-- The line `{"level":3}`. -/
def lineLevelThree : GoString := bytes "\x7b\"level\":3\x7d"

/-- The value `json.Unmarshal` decodes `{"level":3}` to: the number is the `float64` 3. -/
def objLevelThree : GoMap := [(bytes "level", .float64 ⟨0x4008000000000000⟩)]

/-- The line `{"_id":1,"host":"h","user":"u"}`. -/
def lineIdHostUser : GoString :=
  bytes "\x7b\"_id\":1,\"host\":\"h\",\"user\":\"u\"\x7d"

/-- The value `json.Unmarshal` decodes `{"_id":1,"host":"h","user":"u"}` to. -/
def objIdHostUser : GoMap :=
  [(bytes "_id", .float64 ⟨0x3ff0000000000000⟩), (bytes "host", .string (bytes "h")),
   (bytes "user", .string (bytes "u"))]

/-- The line `{"_id":1,"id":2}`. -/
def lineBothIds : GoString := bytes "\x7b\"_id\":1,\"id\":2\x7d"

/-- The value `json.Unmarshal` decodes `{"_id":1,"id":2}` to. -/
def objBothIds : GoMap :=
  [(bytes "_id", .float64 ⟨0x3ff0000000000000⟩), (bytes "id", .float64 ⟨0x4000000000000000⟩)]

/-- The line `{"_id":1,"renamed_id":2}`. -/
def lineIdRenamedId : GoString := bytes "\x7b\"_id\":1,\"renamed_id\":2\x7d"

/-- The value `json.Unmarshal` decodes `{"_id":1,"renamed_id":2}` to. -/
def objIdRenamedId : GoMap :=
  [(bytes "_id", .float64 ⟨0x3ff0000000000000⟩),
   (bytes "renamed_id", .float64 ⟨0x4000000000000000⟩)]

/-- The line `{"host":1}`. -/
def lineHostOne : GoString := bytes "\x7b\"host\":1\x7d"

/-- The value `json.Unmarshal` decodes `{"host":1}` to. -/
def objHostOne : GoMap := [(bytes "host", .float64 ⟨0x3ff0000000000000⟩)]

/-- The line `{"short_message":"a\x23bcdef"}`, with a literal backslash, `x`, `2`, `3`. -/
def lineShortEscaped : GoString := bytes "\x7b\"short_message\":\"a\\x23bcdef\"\x7d"

/-- The line `{"short_message":"a#bcdef"}`. -/
def lineShortRepaired : GoString := bytes "\x7b\"short_message\":\"a#bcdef\"\x7d"

/-- The value `json.Unmarshal` decodes `{"short_message":"a#bcdef"}` to. -/
def objShortRepaired : GoMap := [(bytes "short_message", .string (bytes "a#bcdef"))]

/-- A text line with Short `s`, as `buildGelfMessageText` builds it. -/
def textEnvelope (s : GoString) : Message :=
  { Version := bytes "1.1", Host := bytes "unknown", Short := s, TimeUnix := Float64.zero,
    Level := 6, Extra := [] }

/-- A library whose JSON decoder rejects every message. -/
def libNoJSON : Lib := { jsonUnmarshal := fun _ => none, parseFloat := fun _ => Float64.zero }

/-- Three queued text lines `a`, `b`, `c`. -/
def queueABC : List (GoString × List GoString) :=
  [(bytes "a", []), (bytes "b", []), (bytes "c", [])]

/-- The pieces of the line `{"field":"\xC3\xBCmlaut"}`. -/
def piecesUmlaut : List Piece :=
  (bytes "\x7b\"field\":\"").map Piece.byte ++ [.escape 0x43 0x33, .escape 0x42 0x43] ++
    (bytes "mlaut\"\x7d").map Piece.byte

/-- The pieces of the line `\x22hello`. -/
def piecesQuoteHello : List Piece := Piece.escape 0x32 0x32 :: (bytes "hello").map Piece.byte

/-! ## Lemmas on maps -/

theorem mapGet_mapDelete (m : GoMap) (k q : GoString) :
    mapGet (mapDelete m k) q = if q = k then none else mapGet m q := by
  induction m with
  | nil => simp [mapDelete, mapGet]
  | cons e m ih =>
    obtain ⟨k', v⟩ := e
    unfold mapDelete at ih ⊢
    by_cases h : k' = k
    · subst h
      by_cases hq : q = k'
      · subst hq; simpa [mapGet] using ih
      · have hq' : ¬ k' = q := fun h => hq h.symm
        simpa [mapGet, hq, hq'] using ih
    · by_cases hq : q = k
      · subst hq
        simpa [mapGet, h, List.filter_cons] using ih
      · by_cases hk : k' = q
        · subst hk; simp [mapGet, h, List.filter_cons]
        · simpa [mapGet, h, hq, hk, List.filter_cons] using ih

theorem mapGet_mapSet (m : GoMap) (k q : GoString) (v : Value) :
    mapGet (mapSet m k v) q = if q = k then some v else mapGet m q := by
  unfold mapSet
  by_cases hq : q = k
  · subst hq; simp [mapGet]
  · have hq' : ¬ k = q := fun h => hq h.symm
    simp [mapGet, hq, hq', mapGet_mapDelete]

theorem renameReserved_cons (k : GoString) (rest : List GoString) (jm : GoMap) :
    renameReserved (k :: rest) jm =
      match mapGet jm k, renameTarget k with
      | some v, some t => renameReserved rest (mapDelete (mapSet jm t v) k)
      | _, _ => renameReserved rest jm := by
  unfold renameTarget
  rw [renameReserved]
  cases hget : mapGet jm k with
  | none => simp
  | some v =>
    by_cases h1 : gelfReservedField k = true
    · simp [h1]
    · by_cases h2 : gelfReservedField (bytes "_" ++ k) = true
      · simp [h1, h2]
      · simp [h1, h2]

theorem bytes_renamed : bytes "renamed" = [0x72, 0x65, 0x6e, 0x61, 0x6d, 0x65, 0x64] := by decide
theorem bytes_renamed_ : bytes "renamed_" = [0x72, 0x65, 0x6e, 0x61, 0x6d, 0x65, 0x64, 0x5f] := by
  decide
theorem bytes_underscore : bytes "_" = [0x5f] := by decide

theorem gelfReservedKeys_eq :
    gelfReservedKeys = reservedStems.map (fun n => bytes "_" ++ n) := by
  decide

theorem gelfReservedField_iff (k : GoString) :
    gelfReservedField k = true ↔ ∃ n, n ∈ reservedStems ∧ k = bytes "_" ++ n := by
  unfold gelfReservedField
  rw [decide_eq_true_iff, gelfReservedKeys_eq, List.mem_map]
  constructor
  · rintro ⟨n, hn, rfl⟩; exact ⟨n, hn, rfl⟩
  · rintro ⟨n, hn, rfl⟩; exact ⟨n, hn, rfl⟩

theorem gelfReservedField_underscore_iff (k : GoString) :
    gelfReservedField (bytes "_" ++ k) = true ↔ k ∈ reservedStems := by
  rw [gelfReservedField_iff]
  constructor
  · rintro ⟨n, hn, h⟩
    rw [List.append_cancel_left h]; exact hn
  · intro h; exact ⟨k, h, rfl⟩

theorem stem_not_reserved : ∀ n ∈ reservedStems, gelfReservedField n = false := by decide

theorem renamed_append_underscore (n : GoString) :
    bytes "renamed" ++ (bytes "_" ++ n) = bytes "renamed_" ++ n := by
  rw [bytes_renamed, bytes_renamed_, bytes_underscore]; rfl

theorem renameTarget_eq_some_iff (k t : GoString) :
    renameTarget k = some t ↔
      ∃ n, n ∈ reservedStems ∧ (k = bytes "_" ++ n ∨ k = n) ∧ t = bytes "renamed_" ++ n := by
  unfold renameTarget
  constructor
  · intro h
    by_cases h1 : gelfReservedField k = true
    · rw [if_pos h1] at h
      obtain ⟨n, hn, rfl⟩ := (gelfReservedField_iff k).1 h1
      refine ⟨n, hn, Or.inl rfl, ?_⟩
      rw [← renamed_append_underscore]
      exact (Option.some.inj h).symm
    · rw [if_neg h1] at h
      by_cases h2 : gelfReservedField (bytes "_" ++ k) = true
      · rw [if_pos h2] at h
        exact ⟨k, (gelfReservedField_underscore_iff k).1 h2, Or.inr rfl,
          (Option.some.inj h).symm⟩
      · rw [if_neg h2] at h
        exact absurd h (by simp)
  · rintro ⟨n, hn, hk | hk, rfl⟩
    · subst hk
      have h1 : gelfReservedField (bytes "_" ++ n) = true :=
        (gelfReservedField_underscore_iff n).2 hn
      rw [if_pos h1, renamed_append_underscore]
    · subst hk
      have h1 : ¬ gelfReservedField k = true := by
        rw [stem_not_reserved k hn]; simp
      have h2 : gelfReservedField (bytes "_" ++ k) = true :=
        (gelfReservedField_underscore_iff k).2 hn
      rw [if_neg h1, if_pos h2]

/-- No reserved name, with or without its underscore, starts with `renamed_`. -/
theorem renamed_not_reserved_form :
    ∀ m ∈ reservedStems, ∀ n : GoString,
      bytes "renamed_" ++ n ≠ bytes "_" ++ m ∧ bytes "renamed_" ++ n ≠ m := by
  intro m hm n
  rw [bytes_renamed_, bytes_underscore]
  simp only [reservedStems, List.mem_cons, List.mem_singleton, List.not_mem_nil, or_false] at hm
  rcases hm with rfl | rfl | rfl | rfl | rfl | rfl | rfl <;> constructor <;> intro h <;>
    · have h2 := congrArg List.head? h
      change some (0x72 : UInt8) = _ at h2
      revert h2
      decide

/-- A rename target is itself never renamed. -/
theorem renameTarget_target (k t : GoString) (h : renameTarget k = some t) :
    renameTarget t = none := by
  obtain ⟨n, hn, -, rfl⟩ := (renameTarget_eq_some_iff k t).1 h
  cases hr : renameTarget (bytes "renamed_" ++ n) with
  | none => rfl
  | some t' =>
    exfalso
    obtain ⟨m, hm, hk, -⟩ := (renameTarget_eq_some_iff _ _).1 hr
    have := renamed_not_reserved_form m hm n
    rcases hk with hk | hk
    · exact this.1 hk
    · exact this.2 hk

/-- What one turn of the loop does to a read of the map, when the key `k` is moved to `t`. -/
theorem mapGet_moved (jm : GoMap) (k t q : GoString) (v : Value) :
    mapGet (mapDelete (mapSet jm t v) k) q =
      if q = k then none else if q = t then some v else mapGet jm q := by
  rw [mapGet_mapDelete, mapGet_mapSet]

/-- Frame lemma of the renaming loop: a key that is not removed (it is absent or is not a
reserved name) and is not the rename target of a key of the map keeps its value. -/
theorem mapGet_renameReserved_frame (order : List GoString) :
    ∀ (jm : GoMap) (q : GoString),
      (mapGet jm q = none ∨ renameTarget q = none) →
      (∀ k, mapGet jm k ≠ none → renameTarget k ≠ some q) →
      mapGet (renameReserved order jm) q = mapGet jm q := by
  induction order with
  | nil => intro jm q _ _; rfl
  | cons k rest ih =>
    intro jm q ha hb
    rw [renameReserved_cons]
    cases hget : mapGet jm k with
    | none => exact ih jm q ha hb
    | some v =>
      cases ht : renameTarget k with
      | none => exact ih jm q ha hb
      | some t =>
        have hqk : q ≠ k := by
          rintro rfl
          rcases ha with ha | ha
          · rw [ha] at hget; exact absurd hget (by simp)
          · rw [ha] at ht; exact absurd ht (by simp)
        have hqt : q ≠ t := by
          rintro rfl
          exact hb k (by rw [hget]; simp) ht
        have hq : mapGet (mapDelete (mapSet jm t v) k) q = mapGet jm q := by
          rw [mapGet_moved, if_neg hqk, if_neg hqt]
        show mapGet (renameReserved rest (mapDelete (mapSet jm t v) k)) q = mapGet jm q
        rw [ih _ q (by rw [hq]; exact ha) ?_, hq]
        intro k' hk'
        rw [mapGet_moved] at hk'
        by_cases h1 : k' = k
        · rw [if_pos h1] at hk'; exact absurd rfl hk'
        · rw [if_neg h1] at hk'
          by_cases h2 : k' = t
          · rw [h2, renameTarget_target k t ht]; simp
          · rw [if_neg h2] at hk'; exact hb k' hk'

/-- After the renaming loop no reserved name is left in the map, provided the `range`
statement has produced every reserved key of the map. -/
theorem mapGet_renameReserved_reserved (order : List GoString) :
    ∀ (jm : GoMap),
      (∀ k, mapGet jm k ≠ none → renameTarget k ≠ none → k ∈ order) →
      ∀ q, renameTarget q ≠ none → mapGet (renameReserved order jm) q = none := by
  induction order with
  | nil =>
    intro jm hcov q hq
    by_contra h
    exact absurd (hcov q h hq) (by simp)
  | cons k rest ih =>
    intro jm hcov q hq
    rw [renameReserved_cons]
    have hskip : (mapGet jm k = none ∨ renameTarget k = none) →
        mapGet (renameReserved rest jm) q = none := by
      intro hk
      refine ih jm ?_ q hq
      intro k' h1 h2
      have hmem := hcov k' h1 h2
      rcases List.mem_cons.1 hmem with rfl | hmem
      · rcases hk with hk | hk
        · exact absurd hk h1
        · exact absurd hk h2
      · exact hmem
    cases hget : mapGet jm k with
    | none => exact hskip (Or.inl hget)
    | some v =>
      cases ht : renameTarget k with
      | none => exact hskip (Or.inr ht)
      | some t =>
        show mapGet (renameReserved rest (mapDelete (mapSet jm t v) k)) q = none
        refine ih _ ?_ q hq
        intro k' h1 h2
        rw [mapGet_moved] at h1
        by_cases hk : k' = k
        · rw [if_pos hk] at h1; exact absurd rfl h1
        · rw [if_neg hk] at h1
          by_cases hkt : k' = t
          · rw [hkt, renameTarget_target k t ht] at h2; exact absurd rfl h2
          · rw [if_neg hkt] at h1
            rcases List.mem_cons.1 (hcov k' h1 h2) with h | h
            · exact absurd h hk
            · exact h

/-- Both forms of a reserved stem are moved to `renamed_` followed by the stem. -/
theorem renameTarget_form (n k : GoString) (hn : n ∈ reservedStems)
    (hk : k = bytes "_" ++ n ∨ k = n) : renameTarget k = some (bytes "renamed_" ++ n) :=
  (renameTarget_eq_some_iff k _).2 ⟨n, hn, hk, rfl⟩

/-- Only the two forms of a stem are moved to `renamed_` followed by that stem. -/
theorem form_of_renameTarget (n k : GoString)
    (h : renameTarget k = some (bytes "renamed_" ++ n)) : k = bytes "_" ++ n ∨ k = n := by
  obtain ⟨m, -, hk, ht⟩ := (renameTarget_eq_some_iff k _).1 h
  rw [List.append_cancel_left ht]; exact hk

/-- The renaming loop keeps one of the values found under the two forms of a reserved
stem: if a form is in the map and the `range` statement produces the forms that are in the
map, the target holds the value of one of them. -/
theorem mapGet_renameReserved_renamed (order : List GoString) :
    ∀ (jm : GoMap) (n : GoString), n ∈ reservedStems →
      (∀ k, (k = bytes "_" ++ n ∨ k = n) → mapGet jm k ≠ none → k ∈ order) →
      (mapGet jm (bytes "_" ++ n) ≠ none ∨ mapGet jm n ≠ none) →
      ∃ w, mapGet (renameReserved order jm) (bytes "renamed_" ++ n) = some w ∧
        (mapGet jm (bytes "_" ++ n) = some w ∨ mapGet jm n = some w) := by
  induction order with
  | nil =>
    intro jm n _ hcov hpres
    rcases hpres with h | h
    · exact absurd (hcov _ (Or.inl rfl) h) (by simp)
    · exact absurd (hcov _ (Or.inr rfl) h) (by simp)
  | cons k rest ih =>
    intro jm n hn hcov hpres
    rw [renameReserved_cons]
    have hskip : (mapGet jm k = none ∨ renameTarget k = none) →
        ∃ w, mapGet (renameReserved rest jm) (bytes "renamed_" ++ n) = some w ∧
          (mapGet jm (bytes "_" ++ n) = some w ∨ mapGet jm n = some w) := by
      intro hk
      refine ih jm n hn ?_ hpres
      intro k' hform h1
      rcases List.mem_cons.1 (hcov k' hform h1) with rfl | hmem
      · rcases hk with hk | hk
        · exact absurd hk h1
        · rw [renameTarget_form n k' hn hform] at hk; exact absurd hk (by simp)
      · exact hmem
    cases hget : mapGet jm k with
    | none => exact hskip (Or.inl hget)
    | some v =>
      cases ht : renameTarget k with
      | none => exact hskip (Or.inr ht)
      | some t =>
        show ∃ w, mapGet (renameReserved rest (mapDelete (mapSet jm t v) k))
            (bytes "renamed_" ++ n) = some w ∧
          (mapGet jm (bytes "_" ++ n) = some w ∨ mapGet jm n = some w)
        obtain ⟨m, hm, -, htm⟩ := (renameTarget_eq_some_iff k t).1 ht
        -- a form of `n` other than `k` is read in the new map as in the old one
        have hform : ∀ f, (f = bytes "_" ++ n ∨ f = n) → f ≠ k →
            mapGet (mapDelete (mapSet jm t v) k) f = mapGet jm f := by
          intro f hf hfk
          have hft : f ≠ t := by
            rw [htm]
            rcases hf with rfl | rfl
            · exact fun h => (renamed_not_reserved_form n hn m).1 h.symm
            · exact fun h => (renamed_not_reserved_form f hn m).2 h.symm
          rw [mapGet_moved, if_neg hfk, if_neg hft]
        have hgone : mapGet (mapDelete (mapSet jm t v) k) k = none := by
          rw [mapGet_moved, if_pos rfl]
        by_cases hstill : mapGet (mapDelete (mapSet jm t v) k) (bytes "_" ++ n) ≠ none ∨
            mapGet (mapDelete (mapSet jm t v) k) n ≠ none
        · have hne : ∀ f, mapGet (mapDelete (mapSet jm t v) k) f ≠ none → f ≠ k := by
            rintro f h rfl; exact h hgone
          obtain ⟨w, hw, hor⟩ := ih _ n hn (by
            intro f hf h1
            have hfk := hne f h1
            rw [hform f hf hfk] at h1
            rcases List.mem_cons.1 (hcov f hf h1) with h | h
            · exact absurd h hfk
            · exact h) hstill
          refine ⟨w, hw, ?_⟩
          rcases hor with h | h
          · left
            rw [← hform _ (Or.inl rfl) (hne _ (by rw [h]; simp))]; exact h
          · right
            rw [← hform _ (Or.inr rfl) (hne _ (by rw [h]; simp))]; exact h
        · -- no form of `n` is left: `k` was the last one, and its value stays
          have hno1 : mapGet (mapDelete (mapSet jm t v) k) (bytes "_" ++ n) = none := by
            by_contra h; exact hstill (Or.inl h)
          have hno2 : mapGet (mapDelete (mapSet jm t v) k) n = none := by
            by_contra h; exact hstill (Or.inr h)
          have hk : k = bytes "_" ++ n ∨ k = n := by
            rcases hpres with h | h
            · left
              by_contra hne
              rw [hform _ (Or.inl rfl) (fun e => hne e.symm)] at hno1
              exact h hno1
            · right
              by_contra hne
              rw [hform _ (Or.inr rfl) (fun e => hne e.symm)] at hno2
              exact h hno2
          have htn : t = bytes "renamed_" ++ n := by
            have := renameTarget_form n k hn hk
            rw [ht] at this; exact Option.some.inj this
          refine ⟨v, ?_, ?_⟩
          · rw [mapGet_renameReserved_frame rest _ _
              (Or.inr (renameTarget_target k _ (renameTarget_form n k hn hk))) ?_]
            · rw [mapGet_moved, if_neg, if_pos htn.symm]
              rcases hk with rfl | rfl
              · exact (renamed_not_reserved_form n hn n).1
              · exact (renamed_not_reserved_form k hn k).2
            · intro k' hk' hcontra
              rcases form_of_renameTarget n k' hcontra with rfl | rfl
              · exact hk' hno1
              · exact hk' hno2
          · rcases hk with rfl | rfl
            · exact Or.inl hget
            · exact Or.inr hget

/-- What a returned envelope is made of: the decoded value is a map, and the envelope is
read off the map left by the renaming loop. -/
theorem buildGelfMessageJSON_ok (lib : Lib) (order : List GoString) (message : GoString)
    (gm : Message) (h : buildGelfMessageJSON lib order message = .ok gm) :
    ∃ jm0, lib.jsonUnmarshal message = some (.map jm0) ∧
      gm.Extra = renameReserved order jm0 ∧
      gm.Level = levelField (renameReserved order jm0) ∧
      gm.TimeUnix = timestampField lib (renameReserved order jm0) ∧
      stringField (renameReserved order jm0) (bytes "host") (bytes "unknown_amqp") =
        .ok gm.Host ∧
      stringField (renameReserved order jm0) (bytes "short_message") [] = .ok gm.Short ∧
      stringField (renameReserved order jm0) (bytes "version") (bytes "1.1") =
        .ok gm.Version := by
  unfold buildGelfMessageJSON at h
  cases hdec : lib.jsonUnmarshal message with
  | none => rw [hdec] at h; exact absurd h (by simp)
  | some v =>
    rw [hdec] at h
    cases v with
    | map jm0 =>
      refine ⟨jm0, rfl, ?_⟩
      simp only at h
      cases hh : stringField (renameReserved order jm0) (bytes "host") (bytes "unknown_amqp") with
      | ok host =>
        rw [hh] at h
        cases hs : stringField (renameReserved order jm0) (bytes "short_message") [] with
        | ok short =>
          rw [hs] at h
          cases hv : stringField (renameReserved order jm0) (bytes "version") (bytes "1.1") with
          | ok version =>
            rw [hv] at h
            injection h with h
            subst h
            exact ⟨rfl, rfl, rfl, rfl, rfl, rfl⟩
          | error => rw [hv] at h; exact absurd h (by simp)
          | abort => rw [hv] at h; exact absurd h (by simp)
        | error => rw [hs] at h; exact absurd h (by simp)
        | abort => rw [hs] at h; exact absurd h (by simp)
      | error => rw [hh] at h; exact absurd h (by simp)
      | abort => rw [hh] at h; exact absurd h (by simp)
    | _ => exact absurd h (by simp)

/-- A key that does not start with the letter `r` is no rename target. -/
theorem renameTarget_ne_of_head (k q : GoString) (hq : q.head? ≠ some 0x72) :
    renameTarget k ≠ some q := by
  intro h
  obtain ⟨n, -, -, rfl⟩ := (renameTarget_eq_some_iff k q).1 h
  rw [bytes_renamed_] at hq
  exact hq rfl

/-- The renaming loop does not touch the five fields the builder pulls out of the map. -/
theorem mapGet_renameReserved_pulled (order : List GoString) (jm : GoMap) (q : GoString)
    (hq : q ∈ pulledKeys) : mapGet (renameReserved order jm) q = mapGet jm q := by
  have h1 : ∀ q ∈ pulledKeys, renameTarget q = none ∧ q.head? ≠ some 0x72 := by decide
  exact mapGet_renameReserved_frame order jm q (Or.inr (h1 q hq).1)
    (fun k _ => renameTarget_ne_of_head k q (h1 q hq).2)

/-- A map without reserved keys is left as it is by the renaming loop, whatever the order. -/
theorem renameReserved_of_no_reserved (order : List GoString) (jm : GoMap)
    (h : ∀ k, mapGet jm k ≠ none → renameTarget k = none) : renameReserved order jm = jm := by
  induction order with
  | nil => rfl
  | cons k rest ih =>
    rw [renameReserved_cons]
    cases hget : mapGet jm k with
    | none => exact ih
    | some v =>
      rw [h k (by rw [hget]; simp)]
      exact ih

/-! ## The claims on `buildGelfMessageJSON` -/

/-- C4, the code at a level name outside the table: when the `level` field is a string that
is none of the ten keys of `syslogLevelMapping`, every envelope that is returned has
Level 0, the zero value of the map read, and not the initial value 6. -/
theorem level_unknown_name_is_zero (lib : Lib) (order : List GoString) (message : GoString)
    (jm : GoMap) (s : GoString) (gm : Message)
    (hdec : lib.jsonUnmarshal message = some (.map jm))
    (hlevel : mapGet jm (bytes "level") = some (.string s))
    (hs : s ∉ syslogLevelMapping.map Prod.fst)
    (hgm : buildGelfMessageJSON lib order message = .ok gm) : gm.Level = 0 := by
  obtain ⟨jm0, hdec0, -, hlev, -⟩ := buildGelfMessageJSON_ok lib order message gm hgm
  rw [hdec] at hdec0
  injection hdec0 with hdec0
  injection hdec0 with hdec0
  subst hdec0
  rw [hlev]
  unfold levelField
  rw [mapGet_renameReserved_pulled order jm _ (by decide), hlevel]
  have hnone : syslogLevelMapping.lookup s = none := by
    rw [List.lookup_eq_none_iff]
    intro p hp
    have : s ≠ p.1 := fun h => hs (h ▸ List.mem_map_of_mem Prod.fst hp)
    simpa using this
  simp [syslogLevel, hnone]

/-- Witness for C4: the line `{"level":"fatal"}`. -/
theorem level_unknown_name_is_zero_witness :
    buildGelfMessageJSON (libDecoding lineLevelFatal (.map objLevelFatal)) [bytes "level"]
        lineLevelFatal =
      .ok { Version := bytes "1.1", Host := bytes "unknown_amqp", Short := [],
            TimeUnix := Float64.zero, Level := 0, Extra := objLevelFatal } ∧
    ({ Version := bytes "1.1", Host := bytes "unknown_amqp", Short := [],
       TimeUnix := Float64.zero, Level := 0, Extra := objLevelFatal } : Message).Level = 0 :=
  ⟨rfl, level_unknown_name_is_zero (libDecoding lineLevelFatal (.map objLevelFatal))
      [bytes "level"] lineLevelFatal objLevelFatal (bytes "fatal") _ rfl rfl (by decide) rfl⟩

/-- C4, the part the code keeps: on every returned envelope a `level` that is one of the
ten names of `syslogLevelMapping` gives the Level of the table, and an absent `level`
gives 6. -/
theorem level_known_name_or_absent (lib : Lib) (order : List GoString) (message : GoString)
    (jm : GoMap) (gm : Message)
    (hdec : lib.jsonUnmarshal message = some (.map jm))
    (hgm : buildGelfMessageJSON lib order message = .ok gm) :
    (∀ p ∈ syslogLevelMapping, mapGet jm (bytes "level") = some (.string p.1) →
      gm.Level = p.2) ∧
    (mapGet jm (bytes "level") = none → gm.Level = 6) := by
  obtain ⟨jm0, hdec0, -, hlev, -⟩ := buildGelfMessageJSON_ok lib order message gm hgm
  rw [hdec] at hdec0
  injection hdec0 with hdec0
  injection hdec0 with hdec0
  subst hdec0
  have htable : ∀ p ∈ syslogLevelMapping, syslogLevel p.1 = p.2 := by decide
  constructor
  · intro p hp hlevel
    rw [hlev]
    unfold levelField
    rw [mapGet_renameReserved_pulled order jm _ (by decide), hlevel]
    exact htable p hp
  · intro hlevel
    rw [hlev]
    unfold levelField
    rw [mapGet_renameReserved_pulled order jm _ (by decide), hlevel]

/-- C5, the code at a numeric level: `json.Unmarshal` stores every JSON number as a
`float64`, which the arm `case int32` of the type switch does not match, so every envelope
that is returned for an object with a numeric `level` has the initial Level 6. -/
theorem level_number_is_ignored (lib : Lib) (order : List GoString) (message : GoString)
    (jm : GoMap) (f : Float64) (gm : Message)
    (hdec : lib.jsonUnmarshal message = some (.map jm))
    (hlevel : mapGet jm (bytes "level") = some (.float64 f))
    (hgm : buildGelfMessageJSON lib order message = .ok gm) : gm.Level = 6 := by
  obtain ⟨jm0, hdec0, -, hlev, -⟩ := buildGelfMessageJSON_ok lib order message gm hgm
  rw [hdec] at hdec0
  injection hdec0 with hdec0
  injection hdec0 with hdec0
  subst hdec0
  rw [hlev]
  unfold levelField
  rw [mapGet_renameReserved_pulled order jm _ (by decide), hlevel]

/-- Witness for C5: the line `{"level":3}`. -/
theorem level_number_is_ignored_witness :
    buildGelfMessageJSON (libDecoding lineLevelThree (.map objLevelThree)) [bytes "level"]
        lineLevelThree =
      .ok { Version := bytes "1.1", Host := bytes "unknown_amqp", Short := [],
            TimeUnix := Float64.zero, Level := 6, Extra := objLevelThree } ∧
    ({ Version := bytes "1.1", Host := bytes "unknown_amqp", Short := [],
       TimeUnix := Float64.zero, Level := 6, Extra := objLevelThree } : Message).Level = 6 :=
  ⟨rfl, level_number_is_ignored (libDecoding lineLevelThree (.map objLevelThree))
      [bytes "level"] lineLevelThree objLevelThree ⟨0x4008000000000000⟩ _ rfl rfl rfl⟩

/-- C6: whenever `buildGelfMessageJSON` returns an envelope, with the `range` statement
having produced every key of the decoded object, the Extra map contains none of the
reserved keys `_id`, `_ttl`, `_source`, `_all`, `_index`, `_type`, `_score` and none of
their counterparts without the underscore. -/
theorem extra_has_no_reserved_key (lib : Lib) (order : List GoString) (message : GoString)
    (jm : GoMap) (gm : Message)
    (hdec : lib.jsonUnmarshal message = some (.map jm))
    (hcov : ∀ k, mapGet jm k ≠ none → k ∈ order)
    (hgm : buildGelfMessageJSON lib order message = .ok gm) :
    ∀ n ∈ reservedStems,
      mapGet gm.Extra (bytes "_" ++ n) = none ∧ mapGet gm.Extra n = none := by
  obtain ⟨jm0, hdec0, hextra, -⟩ := buildGelfMessageJSON_ok lib order message gm hgm
  rw [hdec] at hdec0
  injection hdec0 with hdec0
  injection hdec0 with hdec0
  subst hdec0
  intro n hn
  rw [hextra]
  have hclear := mapGet_renameReserved_reserved order jm (fun k h _ => hcov k h)
  constructor
  · exact hclear _ (by rw [renameTarget_form n _ hn (Or.inl rfl)]; simp)
  · exact hclear _ (by rw [renameTarget_form n _ hn (Or.inr rfl)]; simp)

/-- Every key of a map is in the list of its keys. -/
theorem mem_keys_of_mapGet (jm : GoMap) (k : GoString) (h : mapGet jm k ≠ none) :
    k ∈ jm.map Prod.fst := by
  induction jm with
  | nil => exact absurd rfl h
  | cons e m ih =>
    obtain ⟨k', v⟩ := e
    by_cases hk : k' = k
    · subst hk; simp
    · simp only [mapGet, if_neg hk] at h
      simp [ih h]

/-- Witness for C6: the line `{"_id":1,"host":"h","user":"u"}`. -/
theorem extra_has_no_reserved_key_witness :
    buildGelfMessageJSON (libDecoding lineIdHostUser (.map objIdHostUser))
        [bytes "_id", bytes "host", bytes "user"] lineIdHostUser =
      .ok { Version := bytes "1.1", Host := bytes "h", Short := [],
            TimeUnix := Float64.zero, Level := 6,
            Extra := [(bytes "renamed_id", .float64 ⟨0x3ff0000000000000⟩),
              (bytes "host", .string (bytes "h")), (bytes "user", .string (bytes "u"))] } ∧
    mapGet [(bytes "renamed_id", .float64 ⟨0x3ff0000000000000⟩),
        (bytes "host", .string (bytes "h")), (bytes "user", .string (bytes "u"))]
      (bytes "_" ++ bytes "id") = none ∧
    mapGet [(bytes "renamed_id", .float64 ⟨0x3ff0000000000000⟩),
        (bytes "host", .string (bytes "h")), (bytes "user", .string (bytes "u"))]
      (bytes "id") = none :=
  ⟨rfl, extra_has_no_reserved_key (libDecoding lineIdHostUser (.map objIdHostUser))
      [bytes "_id", bytes "host", bytes "user"] lineIdHostUser objIdHostUser
      { Version := bytes "1.1", Host := bytes "h", Short := [],
        TimeUnix := Float64.zero, Level := 6,
        Extra := [(bytes "renamed_id", .float64 ⟨0x3ff0000000000000⟩),
          (bytes "host", .string (bytes "h")), (bytes "user", .string (bytes "u"))] }
      rfl (mem_keys_of_mapGet objIdHostUser) rfl (bytes "id") (by decide)⟩

/-- C7, counterexample: on the object `{"_id":1,"id":2}` both reserved keys are moved to
`renamed_id`. When `range` produces `_id` first the Extra map is `{"renamed_id":2}` and the
value 1 of `_id` is lost; when it produces `id` first the Extra map is `{"renamed_id":1}`
and the value 2 of `id` is lost. -/
theorem renamed_both_forms_lose_a_value :
    mapGet objBothIds (bytes "_id") = some (.float64 ⟨0x3ff0000000000000⟩) ∧
    mapGet objBothIds (bytes "id") = some (.float64 ⟨0x4000000000000000⟩) ∧
    buildGelfMessageJSON (libDecoding lineBothIds (.map objBothIds))
        [bytes "_id", bytes "id"] lineBothIds =
      .ok { Version := bytes "1.1", Host := bytes "unknown_amqp", Short := [],
            TimeUnix := Float64.zero, Level := 6,
            Extra := [(bytes "renamed_id", .float64 ⟨0x4000000000000000⟩)] } ∧
    mapGet [(bytes "renamed_id", .float64 ⟨0x4000000000000000⟩)] (bytes "renamed_id") ≠
      some (.float64 ⟨0x3ff0000000000000⟩) ∧
    buildGelfMessageJSON (libDecoding lineBothIds (.map objBothIds))
        [bytes "id", bytes "_id"] lineBothIds =
      .ok { Version := bytes "1.1", Host := bytes "unknown_amqp", Short := [],
            TimeUnix := Float64.zero, Level := 6,
            Extra := [(bytes "renamed_id", .float64 ⟨0x3ff0000000000000⟩)] } ∧
    mapGet [(bytes "renamed_id", .float64 ⟨0x3ff0000000000000⟩)] (bytes "renamed_id") ≠
      some (.float64 ⟨0x4000000000000000⟩) := by
  refine ⟨rfl, rfl, rfl, ?_, rfl, ?_⟩
  · simp [mapGet]
  · simp [mapGet]

/-- C7, amended: whenever `buildGelfMessageJSON` returns an envelope for a decoded object,
with the `range` statement having produced every key of the object, each reserved key of
the object (`_n` or `n`, for a stem `n`) with value `v` is found in the Extra map under
`renamed_n` with the value `v`, provided the other form of the same stem, if it is in the
object too, carries the same value. -/
theorem reserved_field_renamed (lib : Lib) (order : List GoString) (message : GoString)
    (jm : GoMap) (gm : Message) (n k : GoString) (v : Value)
    (hdec : lib.jsonUnmarshal message = some (.map jm))
    (hcov : ∀ k, mapGet jm k ≠ none → k ∈ order)
    (hgm : buildGelfMessageJSON lib order message = .ok gm)
    (hn : n ∈ reservedStems) (hk : k = bytes "_" ++ n ∨ k = n)
    (hv : mapGet jm k = some v)
    (hsame : ∀ k' v', (k' = bytes "_" ++ n ∨ k' = n) → mapGet jm k' = some v' → v' = v) :
    mapGet gm.Extra (bytes "renamed_" ++ n) = some v := by
  obtain ⟨jm0, hdec0, hextra, -⟩ := buildGelfMessageJSON_ok lib order message gm hgm
  rw [hdec] at hdec0
  injection hdec0 with hdec0
  injection hdec0 with hdec0
  subst hdec0
  have hpres : mapGet jm (bytes "_" ++ n) ≠ none ∨ mapGet jm n ≠ none := by
    rcases hk with rfl | rfl
    · left; rw [hv]; simp
    · right; rw [hv]; simp
  obtain ⟨w, hw, hor⟩ :=
    mapGet_renameReserved_renamed order jm n hn (fun k _ h => hcov k h) hpres
  rw [hextra, hw]
  rcases hor with h | h
  · rw [hsame _ w (Or.inl rfl) h]
  · rw [hsame _ w (Or.inr rfl) h]

/-- Witness for C7: the key `_id` of `{"_id":1,"host":"h","user":"u"}`. -/
theorem reserved_field_renamed_witness :
    buildGelfMessageJSON (libDecoding lineIdHostUser (.map objIdHostUser))
        [bytes "user", bytes "host", bytes "_id"] lineIdHostUser =
      .ok { Version := bytes "1.1", Host := bytes "h", Short := [],
            TimeUnix := Float64.zero, Level := 6,
            Extra := [(bytes "renamed_id", .float64 ⟨0x3ff0000000000000⟩),
              (bytes "host", .string (bytes "h")), (bytes "user", .string (bytes "u"))] } ∧
    mapGet [(bytes "renamed_id", .float64 ⟨0x3ff0000000000000⟩),
        (bytes "host", .string (bytes "h")), (bytes "user", .string (bytes "u"))]
      (bytes "renamed_" ++ bytes "id") = some (.float64 ⟨0x3ff0000000000000⟩) :=
  ⟨rfl, reserved_field_renamed (libDecoding lineIdHostUser (.map objIdHostUser))
      [bytes "user", bytes "host", bytes "_id"] lineIdHostUser objIdHostUser
      { Version := bytes "1.1", Host := bytes "h", Short := [],
        TimeUnix := Float64.zero, Level := 6,
        Extra := [(bytes "renamed_id", .float64 ⟨0x3ff0000000000000⟩),
          (bytes "host", .string (bytes "h")), (bytes "user", .string (bytes "u"))] }
      (bytes "id") (bytes "_id") (.float64 ⟨0x3ff0000000000000⟩)
      rfl
      (fun k h => by
        have := mem_keys_of_mapGet objIdHostUser k h
        simp only [objIdHostUser, List.map_cons, List.map_nil, List.mem_cons,
          List.mem_singleton, List.not_mem_nil, or_false] at this ⊢
        tauto)
      rfl (by decide) (Or.inl rfl) rfl
      (fun k' v' hk' h => by
        rcases hk' with rfl | rfl
        · exact (Option.some.inj h).symm
        · have hnone : mapGet objIdHostUser (bytes "id") = none := rfl
          rw [hnone] at h
          exact absurd h (by simp))⟩

/-- C8, counterexample: on the object `{"_id":1,"renamed_id":2}` the key `renamed_id` is
neither reserved nor pulled, yet the Extra map holds it with the value 1 of `_id`, not
with its own value 2, in whichever order `range` produces the two keys. -/
theorem rename_target_overwritten :
    mapGet objIdRenamedId (bytes "renamed_id") = some (.float64 ⟨0x4000000000000000⟩) ∧
    buildGelfMessageJSON (libDecoding lineIdRenamedId (.map objIdRenamedId))
        [bytes "_id", bytes "renamed_id"] lineIdRenamedId =
      .ok { Version := bytes "1.1", Host := bytes "unknown_amqp", Short := [],
            TimeUnix := Float64.zero, Level := 6,
            Extra := [(bytes "renamed_id", .float64 ⟨0x3ff0000000000000⟩)] } ∧
    buildGelfMessageJSON (libDecoding lineIdRenamedId (.map objIdRenamedId))
        [bytes "renamed_id", bytes "_id"] lineIdRenamedId =
      .ok { Version := bytes "1.1", Host := bytes "unknown_amqp", Short := [],
            TimeUnix := Float64.zero, Level := 6,
            Extra := [(bytes "renamed_id", .float64 ⟨0x3ff0000000000000⟩)] } ∧
    mapGet [(bytes "renamed_id", .float64 ⟨0x3ff0000000000000⟩)] (bytes "renamed_id") ≠
      some (.float64 ⟨0x4000000000000000⟩) := by
  refine ⟨rfl, rfl, rfl, ?_⟩
  simp [mapGet]

/-- C8, amended: whenever `buildGelfMessageJSON` returns an envelope for a decoded object,
every key `k` of the object that is neither a reserved name (with or without underscore)
nor one of the pulled fields, and that is not the rename target `renamed_n` of a reserved
key present in the object, is in the Extra map with exactly the value it had in the
input. (The proof does not use that `k` is not a pulled field: those stay in the map
too.) -/
theorem other_keys_verbatim (lib : Lib) (order : List GoString) (message : GoString)
    (jm : GoMap) (gm : Message) (k : GoString) (v : Value)
    (hdec : lib.jsonUnmarshal message = some (.map jm))
    (hgm : buildGelfMessageJSON lib order message = .ok gm)
    (hv : mapGet jm k = some v)
    (hres : ∀ n ∈ reservedStems, k ≠ bytes "_" ++ n ∧ k ≠ n)
    (_hpulled : k ∉ pulledKeys)
    (htarget : ∀ n ∈ reservedStems, k = bytes "renamed_" ++ n →
      mapGet jm (bytes "_" ++ n) = none ∧ mapGet jm n = none) :
    mapGet gm.Extra k = some v := by
  obtain ⟨jm0, hdec0, hextra, -⟩ := buildGelfMessageJSON_ok lib order message gm hgm
  rw [hdec] at hdec0
  injection hdec0 with hdec0
  injection hdec0 with hdec0
  subst hdec0
  rw [hextra, ← hv]
  apply mapGet_renameReserved_frame
  · right
    cases hr : renameTarget k with
    | none => rfl
    | some t =>
      obtain ⟨n, hn, hform, -⟩ := (renameTarget_eq_some_iff k t).1 hr
      rcases hform with h | h
      · exact absurd h (hres n hn).1
      · exact absurd h (hres n hn).2
  · intro k' hk' hr
    obtain ⟨n, hn, hform, ht⟩ := (renameTarget_eq_some_iff k' k).1 hr
    obtain ⟨h1, h2⟩ := htarget n hn ht
    rcases hform with rfl | rfl
    · exact hk' h1
    · exact hk' h2

/-- Witness for C8: the key `user` of `{"_id":1,"host":"h","user":"u"}`. -/
theorem other_keys_verbatim_witness :
    buildGelfMessageJSON (libDecoding lineIdHostUser (.map objIdHostUser))
        [bytes "host", bytes "_id", bytes "user"] lineIdHostUser =
      .ok { Version := bytes "1.1", Host := bytes "h", Short := [],
            TimeUnix := Float64.zero, Level := 6,
            Extra := [(bytes "renamed_id", .float64 ⟨0x3ff0000000000000⟩),
              (bytes "host", .string (bytes "h")), (bytes "user", .string (bytes "u"))] } ∧
    mapGet [(bytes "renamed_id", .float64 ⟨0x3ff0000000000000⟩),
        (bytes "host", .string (bytes "h")), (bytes "user", .string (bytes "u"))]
      (bytes "user") = some (.string (bytes "u")) :=
  ⟨rfl, other_keys_verbatim (libDecoding lineIdHostUser (.map objIdHostUser))
      [bytes "host", bytes "_id", bytes "user"] lineIdHostUser objIdHostUser
      { Version := bytes "1.1", Host := bytes "h", Short := [],
        TimeUnix := Float64.zero, Level := 6,
        Extra := [(bytes "renamed_id", .float64 ⟨0x3ff0000000000000⟩),
          (bytes "host", .string (bytes "h")), (bytes "user", .string (bytes "u"))] }
      (bytes "user") (.string (bytes "u")) rfl rfl rfl (by decide) (by decide)
      (fun n _ h => by
        have h2 := congrArg List.head? h
        rw [bytes_renamed_] at h2
        change _ = some (0x72 : UInt8) at h2
        exact absurd h2 (by decide))⟩

/-- C9, the code at a field of the wrong type: when the decoded object has a `host` that
is not a string, the unchecked type assertion `jm["host"].(string)` panics, so the call
neither returns an envelope nor an error. -/
theorem non_string_host_aborts (lib : Lib) (order : List GoString) (message : GoString)
    (jm : GoMap) (v : Value)
    (hdec : lib.jsonUnmarshal message = some (.map jm))
    (hhost : mapGet jm (bytes "host") = some v)
    (hv : ∀ s, v ≠ .string s) :
    buildGelfMessageJSON lib order message = .abort := by
  have hfield : stringField (renameReserved order jm) (bytes "host") (bytes "unknown_amqp") =
      .abort := by
    unfold stringField
    rw [mapGet_renameReserved_pulled order jm _ (by decide), hhost]
    cases v with
    | string s => exact absurd rfl (hv s)
    | _ => rfl
  unfold buildGelfMessageJSON
  rw [hdec]
  simp only [hfield]

/-- Witness for C9: the line `{"host":1}`. -/
theorem non_string_host_aborts_witness :
    mapGet objHostOne (bytes "host") = some (.float64 ⟨0x3ff0000000000000⟩) ∧
    buildGelfMessageJSON (libDecoding lineHostOne (.map objHostOne)) [bytes "host"]
      lineHostOne = .abort :=
  ⟨rfl, non_string_host_aborts (libDecoding lineHostOne (.map objHostOne)) [bytes "host"]
      lineHostOne objHostOne (.float64 ⟨0x3ff0000000000000⟩) rfl rfl
      (fun s h => by cases h)⟩

/-- C9, second divergence: when the decoded value is not an object (as for `[1]`), the
type assertion `emptyinterface.(map[string]interface{})` panics. -/
theorem non_object_aborts (lib : Lib) (order : List GoString) (message : GoString)
    (v : Value) (hdec : lib.jsonUnmarshal message = some v) (hv : ∀ jm, v ≠ .map jm) :
    buildGelfMessageJSON lib order message = .abort := by
  unfold buildGelfMessageJSON
  rw [hdec]
  cases v with
  | map jm => exact absurd rfl (hv jm)
  | _ => rfl

/-! ## The state file: printing and scanning -/

/-- The byte test for a decimal digit, as used by `parseDecimal`. -/
theorem digit_byte (d : Nat) (h : d < 10) :
    (decide (0x30 ≤ UInt8.ofNat (0x30 + d)) && decide (UInt8.ofNat (0x30 + d) ≤ 0x39)) = true ∧
      (UInt8.ofNat (0x30 + d)).toNat - 0x30 = d := by
  interval_cases d <;> decide

/-- The decimal digits of a number: a nonempty list of digit bytes whose value is the
number. -/
theorem decimalDigits_spec : ∀ (fuel n : Nat), n < fuel →
    decimalDigits fuel n ≠ [] ∧
    (decimalDigits fuel n).all (fun c => decide (0x30 ≤ c) && decide (c ≤ 0x39)) = true ∧
    (decimalDigits fuel n).foldl (fun a d => 10 * a + (d.toNat - 0x30)) 0 = n := by
  intro fuel
  induction fuel with
  | zero => intro n h; exact absurd h (by omega)
  | succ fuel ih =>
    intro n hn
    unfold decimalDigits
    by_cases h10 : n < 10
    · rw [if_pos h10]
      obtain ⟨h1, h2⟩ := digit_byte n h10
      refine ⟨by simp, ?_, ?_⟩
      · simp only [List.all_cons, List.all_nil, Bool.and_true]; exact h1
      · simp only [List.foldl_cons, List.foldl_nil]; omega
    · rw [if_neg h10]
      obtain ⟨-, i2, i3⟩ := ih (n / 10) (by omega)
      obtain ⟨h1, h2⟩ := digit_byte (n % 10) (Nat.mod_lt _ (by omega))
      refine ⟨by simp, ?_, ?_⟩
      · rw [List.all_append, i2]
        simp only [List.all_cons, List.all_nil, Bool.and_true, Bool.true_and]; exact h1
      · rw [List.foldl_append, i3]
        simp only [List.foldl_cons, List.foldl_nil]
        omega

/-- A token followed by a byte that is no digit and no underscore, or by the end of the
input, is taken whole. -/
theorem takeWhile_token (tok rest : GoString)
    (htok : tok.all (fun c => decide (0x30 ≤ c) && decide (c ≤ 0x39)) = true)
    (hrest : rest.head?.all (fun c => !isDigitOrUnderscore c) = true) :
    (tok ++ rest).takeWhile isDigitOrUnderscore = tok ∧
      (tok ++ rest).dropWhile isDigitOrUnderscore = rest := by
  induction tok with
  | nil =>
    cases rest with
    | nil => simp
    | cons c r =>
      have hc : isDigitOrUnderscore c = false := by simpa using hrest
      simp [List.takeWhile, List.dropWhile, hc]
  | cons c tok ih =>
    rw [List.all_cons, Bool.and_eq_true] at htok
    have hc : isDigitOrUnderscore c = true := by
      unfold isDigitOrUnderscore; rw [htok.1]; rfl
    obtain ⟨h1, h2⟩ := ih htok.2
    simp [List.takeWhile, List.dropWhile, hc, h1, h2]

/-- A digit byte is no space, no newline and no sign. -/
theorem digit_not_special (c : UInt8)
    (h : (decide (0x30 ≤ c) && decide (c ≤ 0x39)) = true) :
    isSpace c = false ∧ c ≠ 0x0a ∧ c ≠ 0x2b ∧ c ≠ 0x2d := by
  rcases c with ⟨v⟩
  revert h
  revert v
  decide

/-- Scanning `%d` as `uint64` over the printed form of `n` gives `n`. -/
theorem scanUint_fmtUint (n : Nat) (rest : GoString) (hn : n ≤ 2 ^ 64 - 1)
    (hrest : rest.head?.all (fun c => !isDigitOrUnderscore c) = true) :
    scanUint (fmtUint n ++ rest) = some (n, rest) := by
  obtain ⟨hne, hall, hval⟩ := decimalDigits_spec (n + 1) n (by omega)
  obtain ⟨htake, hdrop⟩ := takeWhile_token (fmtUint n) rest hall hrest
  obtain ⟨c, tl, hcons⟩ := List.exists_cons_of_ne_nil hne
  have hc : (decide (0x30 ≤ c) && decide (c ≤ 0x39)) = true := by
    have := hall; rw [hcons, List.all_cons, Bool.and_eq_true] at this
    exact this.1
  obtain ⟨hs, hnl, -, -⟩ := digit_not_special c hc
  have hskip : skipSpace (fmtUint n ++ rest) = some (fmtUint n ++ rest) := by
    unfold fmtUint; rw [hcons]
    simp [skipSpace, hs, hnl]
  have hpd : parseDecimal (fmtUint n) = some n := by
    unfold parseDecimal fmtUint
    rw [if_pos hall, hval]
  unfold scanUint
  rw [hskip]
  have hcons' : fmtUint n ++ rest = c :: (tl ++ rest) := by
    unfold fmtUint; rw [hcons]; rfl
  rw [hcons']
  simp only
  rw [← hcons', htake, hdrop, hpd]
  have hne' : fmtUint n ≠ [] := hne
  have hn' : n ≤ 18446744073709551615 := hn
  simp [hne', hn']

/-- The printed form of an unsigned number starts with a digit. -/
theorem fmtUint_cons (n : Nat) :
    ∃ c tl, fmtUint n = c :: tl ∧ (decide (0x30 ≤ c) && decide (c ≤ 0x39)) = true := by
  obtain ⟨hne, hall, -⟩ := decimalDigits_spec (n + 1) n (by omega)
  obtain ⟨c, tl, hcons⟩ := List.exists_cons_of_ne_nil hne
  refine ⟨c, tl, hcons, ?_⟩
  rw [hcons, List.all_cons, Bool.and_eq_true] at hall
  exact hall.1

/-- Scanning `%d` as `int64` over the printed form of `i` gives `i`. -/
theorem scanInt_fmtInt (i : Int) (rest : GoString)
    (hlo : -(2 : Int) ^ 63 ≤ i) (hhi : i ≤ (2 : Int) ^ 63 - 1)
    (hrest : rest.head?.all (fun c => !isDigitOrUnderscore c) = true) :
    scanInt (fmtInt i ++ rest) = some (i, rest) := by
  obtain ⟨-, hall, hval⟩ := decimalDigits_spec (i.natAbs + 1) i.natAbs (by omega)
  obtain ⟨htake, hdrop⟩ := takeWhile_token (fmtUint i.natAbs) rest hall hrest
  obtain ⟨c, tl, hcons, hc⟩ := fmtUint_cons i.natAbs
  obtain ⟨hs, hnl, hplus, hminus⟩ := digit_not_special c hc
  have hpd : parseDecimal (fmtUint i.natAbs) = some i.natAbs := by
    unfold parseDecimal fmtUint
    rw [if_pos hall, hval]
  have hne : fmtUint i.natAbs ≠ [] := by rw [hcons]; simp
  unfold scanInt fmtInt
  by_cases hneg : i < 0
  · rw [if_pos hneg]
    have hskip : skipSpace (0x2d :: fmtUint i.natAbs ++ rest) =
        some (0x2d :: (fmtUint i.natAbs ++ rest)) := by
      rw [List.cons_append, skipSpace]
      rw [if_neg (by decide), if_neg (by decide)]
    rw [hskip]
    have hv : -((i.natAbs : Nat) : Int) = i := by omega
    simp only [decide_True, or_true, if_true, htake, hdrop, hpd, hv]
    simp only [hne, if_false, Bool.false_eq_true, ↓reduceIte]
    have hrange : -(2 : Int) ^ 63 ≤ i ∧ i ≤ (2 : Int) ^ 63 - 1 := ⟨hlo, hhi⟩
    rw [if_pos hrange]
  · rw [if_neg hneg]
    have hskip : skipSpace (fmtUint i.natAbs ++ rest) = some (c :: (tl ++ rest)) := by
      rw [hcons, List.cons_append, skipSpace]
      simp [hs, hnl]
    rw [hskip]
    have hv : ((i.natAbs : Nat) : Int) = i := by omega
    have hback : c :: (tl ++ rest) = fmtUint i.natAbs ++ rest := by rw [hcons]; rfl
    simp only [hplus, hminus, or_self, if_false, decide_False, hback, htake, hdrop, hpd, hv]
    simp only [hne, if_false, Bool.false_eq_true, ↓reduceIte]
    have hrange : -(2 : Int) ^ 63 ≤ i ∧ i ≤ (2 : Int) ^ 63 - 1 := ⟨hlo, hhi⟩
    rw [if_pos hrange]

/-- The printed form of a signed number starts with a byte that is no space. -/
theorem fmtInt_cons (i : Int) : ∃ c tl, fmtInt i = c :: tl ∧ isSpace c = false := by
  unfold fmtInt
  by_cases hneg : i < 0
  · rw [if_pos hneg]; exact ⟨0x2d, _, rfl, by decide⟩
  · rw [if_neg hneg]
    obtain ⟨c, tl, hcons, hc⟩ := fmtUint_cons i.natAbs
    exact ⟨c, tl, hcons, (digit_not_special c hc).1⟩

/-- A space of the input matches a space of the format; the spaces after it go too. -/
theorem advanceSpace_space (l : GoString) :
    advanceSpace (0x20 :: l) = some (dropSpacesNoNewline l) := rfl

/-- A space of the format in front of a printed signed number consumes the one space. -/
theorem advanceSpace_fmtInt (i : Int) (rest : GoString) :
    advanceSpace (0x20 :: (fmtInt i ++ rest)) = some (fmtInt i ++ rest) := by
  obtain ⟨c, tl, hcons, hs⟩ := fmtInt_cons i
  rw [advanceSpace_space, hcons]
  simp [dropSpacesNoNewline, hs]

/-- A space of the format in front of a printed unsigned number consumes the one space. -/
theorem advanceSpace_fmtUint (n : Nat) (rest : GoString) :
    advanceSpace (0x20 :: (fmtUint n ++ rest)) = some (fmtUint n ++ rest) := by
  obtain ⟨c, tl, hcons, hc⟩ := fmtUint_cons n
  rw [advanceSpace_space, hcons]
  simp [dropSpacesNoNewline, (digit_not_special c hc).1]

/-- The state line written by `writeStateFile` is scanned back completely: three operands,
no error, and the values that were printed. -/
theorem sscanfState_writeStateFile (now : Int) (inode : Nat) (offset : Int)
    (o0 t0 : Int) (i0 : Nat)
    (holo : -(2 : Int) ^ 63 ≤ offset) (hohi : offset ≤ (2 : Int) ^ 63 - 1)
    (hnlo : -(2 : Int) ^ 63 ≤ now) (hnhi : now ≤ (2 : Int) ^ 63 - 1)
    (hi : inode ≤ 2 ^ 64 - 1) :
    sscanfState (writeStateFile now inode offset) o0 t0 i0 =
      ⟨3, false, offset, now, inode⟩ := by
  have e1 : advanceLiteral (bytes "Offset") (writeStateFile now inode offset) =
      some (0x20 :: (fmtInt offset ++ (bytes " Time " ++ (fmtInt now ++ (bytes " Inode " ++
        (fmtUint inode ++ bytes "\n")))))) := by
    unfold writeStateFile
    simp only [List.append_assoc]
    rfl
  have e2 : scanInt (fmtInt offset ++ (bytes " Time " ++ (fmtInt now ++ (bytes " Inode " ++
        (fmtUint inode ++ bytes "\n"))))) =
      some (offset, bytes " Time " ++ (fmtInt now ++ (bytes " Inode " ++
        (fmtUint inode ++ bytes "\n")))) :=
    scanInt_fmtInt offset _ holo hohi rfl
  have e3 : ((advanceSpace (bytes " Time " ++ (fmtInt now ++ (bytes " Inode " ++
        (fmtUint inode ++ bytes "\n"))))).bind (advanceLiteral (bytes "Time"))) =
      some (0x20 :: (fmtInt now ++ (bytes " Inode " ++ (fmtUint inode ++ bytes "\n")))) := rfl
  have e4 : scanInt (fmtInt now ++ (bytes " Inode " ++ (fmtUint inode ++ bytes "\n"))) =
      some (now, bytes " Inode " ++ (fmtUint inode ++ bytes "\n")) :=
    scanInt_fmtInt now _ hnlo hnhi rfl
  have e5 : ((advanceSpace (bytes " Inode " ++ (fmtUint inode ++ bytes "\n"))).bind
        (advanceLiteral (bytes "Inode"))) = some (0x20 :: (fmtUint inode ++ bytes "\n")) := rfl
  have e6 : scanUint (fmtUint inode ++ bytes "\n") = some (inode, bytes "\n") :=
    scanUint_fmtUint inode _ hi rfl
  have e7 : advanceNewline (bytes "\n") = some [] := rfl
  unfold sscanfState
  rw [e1]
  simp only [Option.some_bind, advanceSpace_fmtInt, e2, e3, e4, e5, advanceSpace_fmtUint, e6,
    e7]

/-- C2, the code at a record of another file: the state file `Offset 100 Time 1 Inode 5`
is scanned completely (three operands, no error, inode 5), the current inode is 6, and
`readStateFile` returns the stored offset 100, not 0. A record that stops being well
formed after its offset behaves alike: `Offset 100 garbage` yields 100 too. Only a missing
file yields 0. -/
theorem readStateFile_keeps_stale_offset :
    sscanfState (bytes "Offset 100 Time 1 Inode 5\n") 0 0 0 = ⟨3, false, 100, 1, 5⟩ ∧
    readStateFile (some (bytes "Offset 100 Time 1 Inode 5\n")) 6 = 100 ∧
    sscanfState (bytes "Offset 100 garbage") 0 0 0 = ⟨1, true, 100, 0, 0⟩ ∧
    readStateFile (some (bytes "Offset 100 garbage")) 6 = 100 ∧
    readStateFile none 6 = 0 := by
  decide

/-- C3: for every offset and save time in the range of `int64` and every inode in the
range of `uint64`, the record text produced by `writeStateFile` is scanned by
`readStateFile` without error, and with `currentInode` equal to the saved inode the
function returns exactly the saved offset. -/
theorem readStateFile_writeStateFile (now : Int) (inode : Nat) (offset : Int)
    (holo : -(2 : Int) ^ 63 ≤ offset) (hohi : offset ≤ (2 : Int) ^ 63 - 1)
    (hnlo : -(2 : Int) ^ 63 ≤ now) (hnhi : now ≤ (2 : Int) ^ 63 - 1)
    (hi : inode ≤ 2 ^ 64 - 1) :
    sscanfState (writeStateFile now inode offset) 0 0 0 = ⟨3, false, offset, now, inode⟩ ∧
    readStateFile (some (writeStateFile now inode offset)) inode = offset := by
  have h := sscanfState_writeStateFile now inode offset 0 0 0 holo hohi hnlo hnhi hi
  refine ⟨h, ?_⟩
  unfold readStateFile
  simp only [h]
  simp

/-- Witness for C3: offset 4096, inode 131, saved at Unix time
1414141414. -/
theorem readStateFile_writeStateFile_witness :
    writeStateFile 1414141414 131 4096 = bytes "Offset 4096 Time 1414141414 Inode 131\n" ∧
    sscanfState (writeStateFile 1414141414 131 4096) 0 0 0 =
      ⟨3, false, 4096, 1414141414, 131⟩ ∧
    readStateFile (some (writeStateFile 1414141414 131 4096)) 131 = 4096 :=
  ⟨by decide, readStateFile_writeStateFile 1414141414 131 4096 (by decide) (by decide)
    (by decide) (by decide) (by decide)⟩

/-! ## The claims on `buildGelfMessage` -/

/-- A map whose only key is `short_message` has no reserved key. -/
theorem objShortRepaired_no_reserved :
    ∀ k, mapGet objShortRepaired k ≠ none → renameTarget k = none := by
  intro k hk
  have hmem := mem_keys_of_mapGet objShortRepaired k hk
  have hk' : k = bytes "short_message" := by
    simpa [objShortRepaired] using hmem
  rw [hk']
  decide

/-- C1, the code on lines with a hex escape: `buildGelfMessage` never calls `Unescape`.
On the text line `a\x23bcdef` it returns the raw bytes as Short, where the builder of the
specification, which repairs first, returns `a#bcdef`. On the line
`{"short_message":"a\x23bcdef"}` it hands the raw bytes, escape included, to the JSON
decoder, where the builder of the specification hands over the repaired line; with a
decoder that, like `encoding/json`, accepts the repaired line and rejects the raw one,
the code returns an error and the builder of the specification an envelope with Short
`a#bcdef`. -/
theorem buildGelfMessage_does_not_unescape (lib : Lib) (order : List GoString) :
    buildGelfMessage lib order (bytes "a\\x23bcdef") =
      .ok { Version := bytes "1.1", Host := bytes "unknown", Short := bytes "a\\x23bcdef",
            TimeUnix := Float64.zero, Level := 6, Extra := [] } ∧
    specBuild lib order (bytes "a\\x23bcdef") =
      .ok { Version := bytes "1.1", Host := bytes "unknown", Short := bytes "a#bcdef",
            TimeUnix := Float64.zero, Level := 6, Extra := [] } ∧
    bytes "a\\x23bcdef" ≠ bytes "a#bcdef" ∧
    Unescape lineShortEscaped = .ok lineShortRepaired ∧
    buildGelfMessage lib order lineShortEscaped =
      buildGelfMessageJSON lib order lineShortEscaped ∧
    specBuild lib order lineShortEscaped = buildGelfMessageJSON lib order lineShortRepaired ∧
    buildGelfMessage (libDecoding lineShortRepaired (.map objShortRepaired)) order
      lineShortEscaped = .error ∧
    specBuild (libDecoding lineShortRepaired (.map objShortRepaired)) order
        lineShortEscaped =
      .ok { Version := bytes "1.1", Host := bytes "unknown_amqp", Short := bytes "a#bcdef",
            TimeUnix := Float64.zero, Level := 6, Extra := objShortRepaired } := by
  refine ⟨rfl, rfl, by decide, by decide, rfl, rfl, rfl, ?_⟩
  show buildGelfMessageJSON (libDecoding lineShortRepaired (.map objShortRepaired)) order
      lineShortRepaired = _
  have hdec : (libDecoding lineShortRepaired (.map objShortRepaired)).jsonUnmarshal
      lineShortRepaired = some (.map objShortRepaired) := rfl
  unfold buildGelfMessageJSON
  rw [hdec]
  simp only [renameReserved_of_no_reserved order objShortRepaired objShortRepaired_no_reserved]
  rfl

/-- C10, the code on a blank line: the trimmed form of the empty line, and of a line of
white space only, is empty, and the index expression `message[0]` panics, so
`buildGelfMessage` returns neither an envelope nor an error. -/
theorem buildGelfMessage_blank_line_aborts (lib : Lib) (order : List GoString) :
    TrimSpace [] = [] ∧ buildGelfMessage lib order [] = .abort ∧
    TrimSpace (bytes " \t \r\n") = [] ∧ buildGelfMessage lib order (bytes " \t \r\n") = .abort :=
  ⟨rfl, rfl, by decide, rfl⟩

/-- C10, the part the code keeps: a line whose trimmed form is not empty and does not both
begin with `{` and end with `}` is built as text, with Version `1.1`, Host `unknown`, Short
the trimmed line, TimeUnix 0, Level 6 and an empty Extra map. -/
theorem buildGelfMessage_text (lib : Lib) (order : List GoString) (line : GoString)
    (hne : TrimSpace line ≠ [])
    (hshape : ¬ ((TrimSpace line).head? = some 0x7b ∧ (TrimSpace line).getLast? = some 0x7d)) :
    buildGelfMessage lib order line =
      .ok { Version := bytes "1.1", Host := bytes "unknown", Short := TrimSpace line,
            TimeUnix := Float64.zero, Level := 6, Extra := [] } := by
  unfold buildGelfMessage
  simp only
  obtain ⟨c, tl, hcons⟩ := List.exists_cons_of_ne_nil hne
  have h0 : (TrimSpace line)[0]? = some c := by rw [hcons]; simp
  rw [h0]
  simp only
  by_cases hc : c = 0x7b
  · rw [if_pos hc]
    have hlast : (TrimSpace line)[(TrimSpace line).length - 1]? = (TrimSpace line).getLast? := by
      rw [List.getLast?_eq_getElem?]
    rw [hlast]
    cases hl : (TrimSpace line).getLast? with
    | none =>
      exact absurd (List.getLast?_eq_none_iff.1 hl) hne
    | some last =>
      simp only
      have hlast' : last ≠ 0x7d := by
        rintro rfl
        exact hshape ⟨by rw [hcons, hc]; rfl, hl⟩
      rw [if_neg hlast']
      rfl
  · rw [if_neg hc]
    rfl

/-! ## `Unescape`: the loop as a cursor scan -/

theorem Unescape.scan_short (todo doneRev : GoString) (h : todo.length < 4) :
    Unescape.scan todo doneRev = .ok (doneRev.reverse ++ todo) := by
  match todo, h with
  | [], _ => simp [Unescape.scan]
  | [_], _ => simp [Unescape.scan]
  | [_, _], _ => simp [Unescape.scan]
  | [_, _, _], _ => simp [Unescape.scan]
  | _ :: _ :: _ :: _ :: _, h => simp at h; omega

theorem getElem?_cursor (L todo : GoString) (k : Nat) :
    (L ++ todo)[L.length + k]? = todo[k]? := by
  rw [List.getElem?_append_right (by omega)]
  congr 1
  omega

theorem insertBackslash_cursor (L todo : GoString) :
    insertBackslash (L ++ todo) L.length = L ++ 0x5c :: todo := by
  simp [insertBackslash]

theorem decode_cursor (L rest : GoString) (c c1 c2 c3 v : UInt8) :
    ((L ++ c :: c1 :: c2 :: c3 :: rest).set L.length v).take (L.length + 1) ++
      (L ++ c :: c1 :: c2 :: c3 :: rest).drop (L.length + 4) = L ++ v :: rest := by
  simp only [List.take_append_eq_append_take, List.drop_append_eq_append_drop, List.set_append,
    Nat.lt_irrefl, if_false, Nat.sub_self, List.set_cons_zero, List.length_set]
  rw [List.take_of_length_le (by omega), List.drop_eq_nil_of_le (by omega)]
  simp

theorem Unescape.loop_eq_scan : ∀ (fuel : Nat) (doneRev todo : GoString),
    todo.length ≤ fuel + 3 →
    Unescape.loop fuel (doneRev.reverse ++ todo) doneRev.length = Unescape.scan todo doneRev := by
  intro fuel
  induction fuel with
  | zero =>
    intro doneRev todo h
    rw [Unescape.scan_short todo doneRev (by omega)]
    unfold Unescape.loop
    rw [if_neg (by simp; omega)]
  | succ fuel ih =>
    intro doneRev todo h
    match todo, h with
    | [], _ | [_], _ | [_, _], _ | [_, _, _], _ =>
      rw [Unescape.scan_short _ doneRev (by simp)]
      unfold Unescape.loop
      rw [if_neg (by simp)]
    | c :: c1 :: c2 :: c3 :: rest, h =>
      have hlen : rest.length ≤ fuel := by simp at h; omega
      have hL : doneRev.length = doneRev.reverse.length := by simp
      have g0 : (doneRev.reverse ++ c :: c1 :: c2 :: c3 :: rest)[doneRev.length]? = some c := by
        have := getElem?_cursor doneRev.reverse (c :: c1 :: c2 :: c3 :: rest) 0
        simpa using this
      have g1 : (doneRev.reverse ++ c :: c1 :: c2 :: c3 :: rest)[doneRev.length + 1]? =
          some c1 := by
        have := getElem?_cursor doneRev.reverse (c :: c1 :: c2 :: c3 :: rest) 1
        simpa using this
      have g2 : (doneRev.reverse ++ c :: c1 :: c2 :: c3 :: rest)[doneRev.length + 2]? =
          some c2 := by
        have := getElem?_cursor doneRev.reverse (c :: c1 :: c2 :: c3 :: rest) 2
        simpa using this
      have g3 : (doneRev.reverse ++ c :: c1 :: c2 :: c3 :: rest)[doneRev.length + 3]? =
          some c3 := by
        have := getElem?_cursor doneRev.reverse (c :: c1 :: c2 :: c3 :: rest) 3
        simpa using this
      have hins : insertBackslash (doneRev.reverse ++ c :: c1 :: c2 :: c3 :: rest)
          doneRev.length = doneRev.reverse ++ 0x5c :: c :: c1 :: c2 :: c3 :: rest := by
        rw [hL, insertBackslash_cursor]
      -- the state after an insertion in front of the index
      have hinsert : Unescape.loop fuel
          (insertBackslash (doneRev.reverse ++ c :: c1 :: c2 :: c3 :: rest) doneRev.length)
          (doneRev.length + 1 + 1) =
          Unescape.scan (c1 :: c2 :: c3 :: rest) (c :: 0x5c :: doneRev) := by
        rw [hins, ← ih (c :: 0x5c :: doneRev) (c1 :: c2 :: c3 :: rest) (by simp; omega)]
        simp
      have hplain : Unescape.loop fuel (doneRev.reverse ++ c :: c1 :: c2 :: c3 :: rest)
          (doneRev.length + 1) = Unescape.scan (c1 :: c2 :: c3 :: rest) (c :: doneRev) := by
        rw [← ih (c :: doneRev) (c1 :: c2 :: c3 :: rest) (by simp; omega)]
        simp
      have hskip : Unescape.loop fuel (doneRev.reverse ++ c :: c1 :: c2 :: c3 :: rest)
          (doneRev.length + 1 + 1) = Unescape.scan (c2 :: c3 :: rest) (c1 :: c :: doneRev) := by
        rw [← ih (c1 :: c :: doneRev) (c2 :: c3 :: rest) (by simp; omega)]
        simp
      unfold Unescape.loop
      rw [if_pos (by simp), g0]
      simp only
      unfold Unescape.scan
      by_cases hq : c = 0x22
      · rw [if_pos hq, if_pos hq]
        match doneRev, ih, g0, hplain with
        | [], _, _, _ => simp
        | p :: before, ih, g0, hplain =>
          have hp : (List.reverse (p :: before) ++ c :: c1 :: c2 :: c3 :: rest)[
              (p :: before).length - 1]? = some p := by
            have := getElem?_cursor before.reverse (p :: c :: c1 :: c2 :: c3 :: rest) 0
            simpa using this
          rw [if_neg (by simp), hp]
          simp only
          by_cases hpb : p = 0x5c
          · rw [if_pos hpb, if_pos hpb]
            have hins2 : insertBackslash (List.reverse (p :: before) ++ c :: c1 :: c2 :: c3 :: rest)
                ((p :: before).length - 1) =
                before.reverse ++ 0x5c :: p :: c :: c1 :: c2 :: c3 :: rest := by
              have := insertBackslash_cursor before.reverse (p :: c :: c1 :: c2 :: c3 :: rest)
              simpa using this
            rw [hins2, ← ih (c :: p :: 0x5c :: before) (c1 :: c2 :: c3 :: rest) (by simp; omega)]
            simp
          · rw [if_neg hpb, if_neg hpb]; exact hplain
      · rw [if_neg hq, if_neg hq]
        by_cases hb : c = 0x5c
        · rw [if_pos hb, if_pos hb, g1]
          simp only
          subst hb
          by_cases h1 : c1 = 0x5c
          · rw [if_pos h1, if_pos h1]; exact hskip
          · rw [if_neg h1, if_neg h1]
            by_cases h2 : c1 = 0x22
            · rw [if_pos h2, if_pos h2]; exact hskip
            · rw [if_neg h2, if_neg h2]
              by_cases h3 : c1 = 0x78
              · rw [if_pos h3, if_pos h3, g2, g3]
                simp only
                by_cases hctl : (c2 = 0x30 ∨ c2 = 0x31) ∨ (c2 = 0x32 ∧ c3 = 0x32) ∨
                    (c2 = 0x35 ∧ c3 = 0x43)
                · rw [if_pos hctl, if_pos hctl]; exact hinsert
                · rw [if_neg hctl, if_neg hctl]
                  cases hparse : parseUintHex8 c2 c3 with
                  | none => exact hinsert
                  | some val =>
                    simp only
                    have hdec := decode_cursor doneRev.reverse rest 0x5c c1 c2 c3
                      (UInt8.ofNat val)
                    rw [← hL] at hdec
                    rw [hdec, ← ih (UInt8.ofNat val :: doneRev) rest (by omega)]
                    simp
              · rw [if_neg h3, if_neg h3]; exact hinsert
        · rw [if_neg hb, if_neg hb]; exact hplain


/-- With the fuel `Unescape` supplies, the loop is the cursor scan from the first byte. -/
theorem Unescape_eq_scan (input : GoString) : Unescape input = Unescape.scan input [] := by
  have := Unescape.loop_eq_scan input.length [] input (by omega)
  simpa [Unescape] using this

/-- A byte that is neither a quote nor a backslash is stepped over. -/
theorem Unescape.scan_cons_plain (c c1 c2 c3 : UInt8) (rest doneRev : GoString)
    (hq : c ≠ 0x22) (hb : c ≠ 0x5c) :
    Unescape.scan (c :: c1 :: c2 :: c3 :: rest) doneRev =
      Unescape.scan (c1 :: c2 :: c3 :: rest) (c :: doneRev) := by
  conv_lhs => unfold Unescape.scan
  rw [if_neg hq, if_neg hb]

/-- A run of bytes without quote and backslash is stepped over, as long as three bytes
follow it. -/
theorem Unescape.scan_plain_append (p : GoString) (hb : 0x5c ∉ p) (hq : 0x22 ∉ p) :
    ∀ (t doneRev : GoString), 3 ≤ t.length →
      Unescape.scan (p ++ t) doneRev = Unescape.scan t (p.reverse ++ doneRev) := by
  induction p with
  | nil => intro t doneRev _; rfl
  | cons c p ih =>
    intro t doneRev ht
    have hc1 : c ≠ 0x5c := fun h => hb (by simp [h])
    have hc2 : c ≠ 0x22 := fun h => hq (by simp [h])
    have hb' : 0x5c ∉ p := fun h => hb (List.mem_cons_of_mem _ h)
    have hq' : 0x22 ∉ p := fun h => hq (List.mem_cons_of_mem _ h)
    obtain ⟨a, b, d, r, hpt⟩ : ∃ a b d r, p ++ t = a :: b :: d :: r := by
      match p ++ t, (by simp; omega : 3 ≤ (p ++ t).length) with
      | a :: b :: d :: r, _ => exact ⟨a, b, d, r, rfl⟩
    rw [List.cons_append, hpt, Unescape.scan_cons_plain _ _ _ _ _ _ hc2 hc1, ← hpt,
      ih hb' hq' t (c :: doneRev) ht]
    simp

/-- A run of bytes without quote and backslash followed by fewer than four bytes is left
as it is. -/
theorem Unescape.scan_plain_short (p : GoString) (hb : 0x5c ∉ p) (hq : 0x22 ∉ p) :
    ∀ (t doneRev : GoString), t.length < 4 →
      Unescape.scan (p ++ t) doneRev = .ok (doneRev.reverse ++ (p ++ t)) := by
  induction p with
  | nil => intro t doneRev ht; exact Unescape.scan_short t doneRev ht
  | cons c p ih =>
    intro t doneRev ht
    have hc1 : c ≠ 0x5c := fun h => hb (by simp [h])
    have hc2 : c ≠ 0x22 := fun h => hq (by simp [h])
    have hb' : 0x5c ∉ p := fun h => hb (List.mem_cons_of_mem _ h)
    have hq' : 0x22 ∉ p := fun h => hq (List.mem_cons_of_mem _ h)
    by_cases hlen : (p ++ t).length < 3
    · exact Unescape.scan_short _ doneRev (by simp at hlen ⊢; omega)
    · obtain ⟨a, b, d, r, hpt⟩ : ∃ a b d r, p ++ t = a :: b :: d :: r := by
        match p ++ t, (by omega : 3 ≤ (p ++ t).length) with
        | a :: b :: d :: r, _ => exact ⟨a, b, d, r, rfl⟩
      rw [List.cons_append, hpt, Unescape.scan_cons_plain _ _ _ _ _ _ hc2 hc1, ← hpt,
        ih hb' hq' t (c :: doneRev) ht]
      simp

/-- A buffer without quote and backslash is left as it is. -/
theorem Unescape.scan_plain (p doneRev : GoString) (hb : 0x5c ∉ p) (hq : 0x22 ∉ p) :
    Unescape.scan p doneRev = .ok (doneRev.reverse ++ p) := by
  have := Unescape.scan_plain_short p hb hq [] doneRev (by simp)
  simpa using this


/-- Once a byte lies in front of the cursor the scan returns a buffer: no index is out of
range and the bytes left run out. -/
theorem Unescape.scan_ok_of_ne_nil : ∀ (n : Nat) (todo doneRev : GoString),
    todo.length ≤ n → doneRev ≠ [] → ∃ out, Unescape.scan todo doneRev = .ok out := by
  intro n
  induction n with
  | zero =>
    intro todo doneRev h _
    exact ⟨_, Unescape.scan_short todo doneRev (by omega)⟩
  | succ n ih =>
    intro todo doneRev h hne
    match todo, h with
    | [], _ | [_], _ | [_, _], _ | [_, _, _], _ =>
      exact ⟨_, Unescape.scan_short _ doneRev (by simp)⟩
    | c :: c1 :: c2 :: c3 :: rest, h =>
      have h1 : (c1 :: c2 :: c3 :: rest).length ≤ n := by simp at h ⊢; omega
      have h2 : (c2 :: c3 :: rest).length ≤ n := by simp at h ⊢; omega
      have h3 : rest.length ≤ n := by simp at h; omega
      unfold Unescape.scan
      split_ifs
      · match doneRev, hne with
        | p :: before, _ =>
          simp only
          split_ifs
          · exact ih _ _ h1 (by simp)
          · exact ih _ _ h1 (by simp)
      · exact ih _ _ h2 (by simp)
      · exact ih _ _ h2 (by simp)
      · exact ih _ _ h1 (by simp)
      · cases parseUintHex8 c2 c3 with
        | none => exact ih _ _ h1 (by simp)
        | some val => exact ih _ _ h3 (by simp)
      · exact ih _ _ h1 (by simp)
      · exact ih _ _ h1 (by simp)

/-- The scan from the first byte returns a buffer unless the buffer has four bytes or more
and starts with a quote. -/
theorem Unescape.scan_ok (input : GoString)
    (h : input.length < 4 ∨ input.head? ≠ some 0x22) :
    ∃ out, Unescape.scan input [] = .ok out := by
  match input, h with
  | [], _ | [_], _ | [_, _], _ | [_, _, _], _ =>
    exact ⟨_, Unescape.scan_short _ [] (by simp)⟩
  | c :: c1 :: c2 :: c3 :: rest, h =>
    have hc : c ≠ 0x22 := by
      rcases h with h | h
      · simp at h; omega
      · simpa using h
    unfold Unescape.scan
    rw [if_neg hc]
    split_ifs
    · exact Unescape.scan_ok_of_ne_nil _ _ _ le_rfl (by simp)
    · exact Unescape.scan_ok_of_ne_nil _ _ _ le_rfl (by simp)
    · exact Unescape.scan_ok_of_ne_nil _ _ _ le_rfl (by simp)
    · cases parseUintHex8 c2 c3 with
      | none => exact Unescape.scan_ok_of_ne_nil _ _ _ le_rfl (by simp)
      | some val => exact Unescape.scan_ok_of_ne_nil _ _ _ le_rfl (by simp)
    · exact Unescape.scan_ok_of_ne_nil _ _ _ le_rfl (by simp)
    · exact Unescape.scan_ok_of_ne_nil _ _ _ le_rfl (by simp)

/-- The scan from the first byte never ends for lack of fuel: it returns a buffer or
stops on the out-of-range read in front of a leading quote. -/
theorem Unescape.scan_ne_outOfFuel (input : GoString) :
    Unescape.scan input [] ≠ .error .outOfFuel := by
  by_cases h : input.length < 4 ∨ input.head? ≠ some 0x22
  · obtain ⟨out, hout⟩ := Unescape.scan_ok input h
    rw [hout]; simp
  · match input, h with
    | [], h | [_], h | [_, _], h | [_, _, _], h => simp at h
    | c :: c1 :: c2 :: c3 :: rest, h =>
      have hc : c = 0x22 := by
        by_contra hc
        exact h (Or.inr (by simpa using hc))
      unfold Unescape.scan
      rw [if_pos hc]
      simp


/-- C13: for all byte strings `p` and `s` without backslash and double quote, and every
byte `X` other than backslash, double quote and `x`, `Unescape` turns `p \ X s` into
`p \\ X s` when `s` has at least 2 bytes, and returns it unchanged when `s` has fewer
than 2 bytes. -/
theorem lone_backslash_doubled (p s : GoString) (X : UInt8)
    (hpb : 0x5c ∉ p) (hpq : 0x22 ∉ p) (hsb : 0x5c ∉ s) (hsq : 0x22 ∉ s)
    (hXb : X ≠ 0x5c) (hXq : X ≠ 0x22) (hXx : X ≠ 0x78) :
    Unescape (p ++ 0x5c :: X :: s) =
      .ok (if 2 ≤ s.length then p ++ 0x5c :: 0x5c :: X :: s else p ++ 0x5c :: X :: s) := by
  rw [Unescape_eq_scan]
  by_cases hlen : 2 ≤ s.length
  · rw [if_pos hlen, Unescape.scan_plain_append p hpb hpq _ _ (by simp; omega)]
    match s, hlen, hsb, hsq with
    | a :: b :: s', _, hsb, hsq =>
      conv_lhs => unfold Unescape.scan
      rw [if_neg (by decide), if_pos rfl, if_neg hXb, if_neg hXq, if_neg hXx]
      rw [Unescape.scan_plain (X :: a :: b :: s') _
        (by simp only [List.mem_cons, not_or]; exact ⟨fun h => hXb h.symm, by simpa using hsb⟩)
        (by simp only [List.mem_cons, not_or]; exact ⟨fun h => hXq h.symm, by simpa using hsq⟩)]
      simp
  · rw [if_neg hlen, Unescape.scan_plain_short p hpb hpq _ _ (by simp; omega)]
    simp

/-- Witness for C13: `he\llo` becomes `he\\llo`. -/
theorem lone_backslash_doubled_witness :
    Unescape (bytes "he" ++ 0x5c :: 0x6c :: bytes "lo") =
      .ok (if 2 ≤ (bytes "lo").length then bytes "he" ++ 0x5c :: 0x5c :: 0x6c :: bytes "lo"
        else bytes "he" ++ 0x5c :: 0x6c :: bytes "lo") :=
  lone_backslash_doubled (bytes "he") (bytes "lo") 0x6c (by decide) (by decide) (by decide)
    (by decide) (by decide) (by decide) (by decide)

theorem replicate_append_cons (n : Nat) (a : UInt8) (l : GoString) :
    List.replicate n a ++ a :: l = a :: (List.replicate n a ++ l) := by
  induction n with
  | zero => rfl
  | succ n ih => rw [List.replicate_succ, List.cons_append, ih, List.cons_append]

/-- Pairs of backslashes are stepped over, as long as two bytes follow each pair. -/
theorem Unescape.scan_pairs (k : Nat) : ∀ (t doneRev : GoString), 2 ≤ t.length →
    Unescape.scan (List.replicate (2 * k) 0x5c ++ t) doneRev =
      Unescape.scan t (List.replicate (2 * k) 0x5c ++ doneRev) := by
  induction k with
  | zero => intro t doneRev _; rfl
  | succ k ih =>
    intro t doneRev ht
    have hrep : List.replicate (2 * (k + 1)) (0x5c : UInt8) =
        0x5c :: 0x5c :: List.replicate (2 * k) 0x5c := by
      rw [show 2 * (k + 1) = 2 * k + 1 + 1 by omega, List.replicate_succ, List.replicate_succ]
    obtain ⟨a, b, r, hr⟩ : ∃ a b r, List.replicate (2 * k) (0x5c : UInt8) ++ t = a :: b :: r := by
      match List.replicate (2 * k) (0x5c : UInt8) ++ t,
        (by simp; omega : 2 ≤ (List.replicate (2 * k) (0x5c : UInt8) ++ t).length) with
      | a :: b :: r, _ => exact ⟨a, b, r, rfl⟩
    rw [hrep, List.cons_append, List.cons_append, hr]
    conv_lhs => unfold Unescape.scan
    rw [if_neg (by decide), if_pos rfl, if_pos rfl, ← hr, ih t _ ht]
    rw [replicate_append_cons, replicate_append_cons]
    rfl

/-- C14: for all byte strings `p` and `s` without backslash and double quote, `s` of at
least 3 bytes, and every `k ≥ 1`, `Unescape` applied to `p`, `k` backslash pairs, a double
quote and `s` returns `p`, the same `k` pairs, one extra backslash, the double quote and
`s`. -/
theorem apache_workaround (p s : GoString) (k : Nat)
    (hpb : 0x5c ∉ p) (hpq : 0x22 ∉ p) (hsb : 0x5c ∉ s) (hsq : 0x22 ∉ s)
    (hs : 3 ≤ s.length) (hk : 1 ≤ k) :
    Unescape (p ++ (List.replicate (2 * k) 0x5c ++ 0x22 :: s)) =
      .ok (p ++ (List.replicate (2 * k) 0x5c ++ 0x5c :: 0x22 :: s)) := by
  rw [Unescape_eq_scan, Unescape.scan_plain_append p hpb hpq _ _ (by simp; omega),
    Unescape.scan_pairs k _ _ (by simp; omega)]
  obtain ⟨j, rfl⟩ : ∃ j, k = j + 1 := ⟨k - 1, by omega⟩
  have hrep : List.replicate (2 * (j + 1)) (0x5c : UInt8) =
      0x5c :: List.replicate (2 * j + 1) 0x5c := by
    rw [show 2 * (j + 1) = 2 * j + 1 + 1 by omega, List.replicate_succ]
  match s, hs, hsb, hsq with
  | a :: b :: c :: s', _, hsb, hsq =>
    conv_lhs => unfold Unescape.scan
    rw [if_pos rfl, hrep]
    simp only [List.cons_append, if_true]
    rw [Unescape.scan_plain _ _ hsb hsq]
    simp [List.replicate_succ']

/-- Witness for C14: `he\\"llo` becomes `he\\\"llo`. -/
theorem apache_workaround_witness :
    Unescape (bytes "he" ++ (List.replicate (2 * 1) 0x5c ++ 0x22 :: bytes "llo")) =
      .ok (bytes "he" ++ (List.replicate (2 * 1) 0x5c ++ 0x5c :: 0x22 :: bytes "llo")) :=
  apache_workaround (bytes "he") (bytes "llo") 1 (by decide) (by decide) (by decide)
    (by decide) (by decide) (by decide)


/-- A buffer without backslash is left as it is by the scan, provided the byte in front of
the cursor is no backslash and the scan does not start on a quote at the first byte of a
buffer of four bytes or more. -/
theorem Unescape.scan_no_backslash : ∀ (todo doneRev : GoString), 0x5c ∉ todo →
    doneRev.head? ≠ some 0x5c →
    (doneRev = [] → todo.length < 4 ∨ todo.head? ≠ some 0x22) →
    Unescape.scan todo doneRev = .ok (doneRev.reverse ++ todo) := by
  intro todo
  induction todo with
  | nil => intro doneRev _ _ _; exact Unescape.scan_short [] doneRev (by simp)
  | cons c tl ih =>
    intro doneRev hb hprev hfirst
    have hc : c ≠ 0x5c := fun h => hb (by simp [h])
    have hb' : 0x5c ∉ tl := fun h => hb (List.mem_cons_of_mem _ h)
    by_cases hlen : tl.length < 3
    · exact Unescape.scan_short _ doneRev (by simp; omega)
    · match tl, hlen, hb', ih with
      | [], h, _, _ | [_], h, _, _ | [_, _], h, _, _ => exact absurd (by simp) h
      | c1 :: c2 :: c3 :: rest, _, hb', ih =>
        have hnext : Unescape.scan (c1 :: c2 :: c3 :: rest) (c :: doneRev) =
            .ok (doneRev.reverse ++ c :: c1 :: c2 :: c3 :: rest) := by
          rw [ih (c :: doneRev) hb' (by simpa using hc) (by simp)]
          simp
        conv_lhs => unfold Unescape.scan
        by_cases hq : c = 0x22
        · rw [if_pos hq]
          match doneRev, hprev, hfirst, hnext with
          | [], _, hfirst, _ =>
            rcases hfirst rfl with h | h
            · simp at h; omega
            · exact absurd (by simp [hq]) h
          | p :: before, hprev, _, hnext =>
            have hp : p ≠ 0x5c := by simpa using hprev
            simp only
            rw [if_neg hp]
            exact hnext
        · rw [if_neg hq, if_neg hc]
          exact hnext

/-- C15, counterexample: the buffer `"abcd` contains no backslash, and `Unescape` does not
return it: the first byte is a quote, and the read of the byte in front of it is out of
range. -/
theorem Unescape_leading_quote_aborts :
    0x5c ∉ bytes "\"abcd" ∧ Unescape (bytes "\"abcd") = .error .indexOutOfRange := by
  decide

/-- C15, amended: for every byte string that contains no backslash and that is shorter
than 4 bytes or does not start with a double quote, `Unescape` returns the input
unchanged. -/
theorem Unescape_no_backslash (input : GoString) (hb : 0x5c ∉ input)
    (hfirst : input.length < 4 ∨ input.head? ≠ some 0x22) :
    Unescape input = .ok input := by
  rw [Unescape_eq_scan, Unescape.scan_no_backslash input [] hb (by simp) (fun _ => hfirst)]
  rfl

/-- Witness for C15: `hello` is returned unchanged. -/
theorem Unescape_no_backslash_witness : Unescape (bytes "hello") = .ok (bytes "hello") :=
  Unescape_no_backslash (bytes "hello") (by decide) (Or.inr (by decide))

/-- C18, the code at a lower-case escape of the backslash: the test for `5C` compares with
the upper-case letter only, so `\x5c` is decoded. `a\x5cbcd` becomes `a\bcd`, with a raw
backslash, where the upper-case form `a\x5Cbcd` becomes `a\\x5Cbcd`. -/
theorem Unescape_decodes_lowercase_5c :
    Unescape (bytes "a\\x5cbcd") = .ok (bytes "a\\bcd") ∧
    Unescape (bytes "a\\x5cbcd") ≠ .ok (bytes "a\\\\x5cbcd") ∧
    Unescape (bytes "a\\x5Cbcd") = .ok (bytes "a\\\\x5Cbcd") := by
  decide

/-- C19: for every input that is shorter than 4 bytes or whose first byte is not a double
quote, `Unescape` returns a buffer: no read at `i-1`, `i+1`, `i+2` or `i+3` is out of
range at any iteration (the slices the loop takes have their bounds at indices that were
read, or at `i`), and the fuel is not used up. -/
theorem Unescape_index_safe (input : GoString)
    (h : input.length < 4 ∨ input.head? ≠ some 0x22) :
    (∃ out, Unescape input = .ok out) ∧ Unescape input ≠ .error .indexOutOfRange := by
  obtain ⟨out, hout⟩ := Unescape.scan_ok input h
  rw [Unescape_eq_scan, hout]
  exact ⟨⟨out, rfl⟩, by simp⟩

/-- Witness for C19: the buffer `a"\x5D\"z`, which goes through a decode and a skip. -/
theorem Unescape_index_safe_witness :
    (∃ out, Unescape (bytes "a\"\\x5D\\\"zzzz") = .ok out) ∧
      Unescape (bytes "a\"\\x5D\\\"zzzz") ≠ .error .indexOutOfRange :=
  Unescape_index_safe (bytes "a\"\\x5D\\\"zzzz") (Or.inr (by decide))

/-- The scan returns a buffer or stops on the out-of-range read: it never ends for lack of
fuel, wherever the cursor stands. -/
theorem Unescape.scan_ne_outOfFuel_at (todo doneRev : GoString) :
    Unescape.scan todo doneRev ≠ .error .outOfFuel := by
  match doneRev with
  | [] => exact Unescape.scan_ne_outOfFuel todo
  | p :: before =>
    obtain ⟨out, hout⟩ := Unescape.scan_ok_of_ne_nil _ todo (p :: before) le_rfl (by simp)
    rw [hout]; simp

/-- C20: the loop of `Unescape` ends for every input. From any index `i` the remaining
distance `len(input) - 3 - i` is enough fuel, at one unit per iteration, for the loop to
reach its end, whatever insertions and decodes lengthen or shorten the buffer on the way;
in particular `Unescape` never stops for lack of fuel. -/
theorem Unescape_terminates (input : GoString) (i fuel : Nat) (hi : i ≤ input.length)
    (hfuel : input.length - 3 - i ≤ fuel) :
    Unescape.loop fuel input i ≠ .error .outOfFuel ∧ Unescape input ≠ .error .outOfFuel := by
  constructor
  · have hsplit : input = (input.take i).reverse.reverse ++ input.drop i := by simp
    have hlen : i = (input.take i).reverse.length := by simp [hi]
    have h := Unescape.loop_eq_scan fuel (input.take i).reverse (input.drop i)
      (by simp; omega)
    rw [← hsplit, ← hlen] at h
    rw [h]
    exact Unescape.scan_ne_outOfFuel_at _ _
  · rw [Unescape_eq_scan]
    exact Unescape.scan_ne_outOfFuel input

/-- Witness for C20: `\x\x\x5Dhello`, 13 bytes, two insertions and a decode, with 10 units
of fuel from index 0. -/
theorem Unescape_terminates_witness :
    Unescape.loop 10 (bytes "\\x\\x\\x5Dhello") 0 ≠ .error .outOfFuel ∧
      Unescape (bytes "\\x\\x\\x5Dhello") ≠ .error .outOfFuel :=
  Unescape_terminates (bytes "\\x\\x\\x5Dhello") 0 10 (by decide) (by decide)

/-! ## `Unescape`: hex escapes -/

theorem hexDigit_facts (c : UInt8) :
    (hexDigit c).all (fun a => decide (a < 16)) = true ∧
      ((hexDigit c).isSome = true → c ≠ 0x5c ∧ c ≠ 0x22) := by
  rcases c with ⟨v⟩
  revert v
  decide

theorem parseUintHex8_of_digits (h l : UInt8) (hh : (hexDigit h).isSome = true)
    (hl : (hexDigit l).isSome = true) :
    parseUintHex8 h l = some (hexValue h l) ∧ hexValue h l < 256 := by
  obtain ⟨a, ha⟩ := Option.isSome_iff_exists.1 hh
  obtain ⟨b, hb⟩ := Option.isSome_iff_exists.1 hl
  have h1 := (hexDigit_facts h).1
  have h2 := (hexDigit_facts l).1
  rw [ha] at h1
  rw [hb] at h2
  simp only [Option.all_some, decide_eq_true_eq] at h1 h2
  unfold parseUintHex8 hexValue
  rw [ha, hb]
  simp only [Option.getD_some]
  exact ⟨trivial, by omega⟩

theorem ofNat_ne_of_ne (v w : Nat) (hv : v < 256) (hw : w < 256) (h : v ≠ w) :
    UInt8.ofNat v ≠ UInt8.ofNat w := by
  intro he
  have := congrArg UInt8.toNat he
  rw [UInt8.toNat_ofNat_of_lt (by simpa [UInt8.size] using hv),
    UInt8.toNat_ofNat_of_lt (by simpa [UInt8.size] using hw)] at this
  exact h this


theorem renderPieces_cons (p : Piece) (ps : List Piece) :
    renderPieces (p :: ps) = p.render ++ renderPieces ps := by
  simp [renderPieces]

theorem renderPieces_toPieces_aux : ∀ (n : Nat) (input : GoString), input.length ≤ n →
    renderPieces (toPieces input) = input := by
  intro n
  induction n with
  | zero =>
    intro input h
    match input, h with
    | [], _ => rfl
  | succ n ih =>
    intro input h
    match input, h with
    | [], _ => rfl
    | [a], _ => rfl
    | [a, b], _ => rfl
    | [a, b, c], _ => rfl
    | c :: x :: hh :: l :: rest, h =>
      unfold toPieces
      by_cases hc : c = 0x5c ∧ x = 0x78
      · rw [if_pos hc, renderPieces_cons, ih rest (by simp at h; omega)]
        obtain ⟨rfl, rfl⟩ := hc
        rfl
      · rw [if_neg hc, renderPieces_cons, ih _ (by simp at h ⊢; omega)]
        rfl

/-- Every input is the sequence of its pieces, so the inputs in which every backslash
starts an escape `\xHL` are the sequences of pieces without the byte piece `\`. -/
theorem renderPieces_toPieces (input : GoString) : renderPieces (toPieces input) = input :=
  renderPieces_toPieces_aux input.length input le_rfl

theorem decodedPieces_cons (p : Piece) (ps : List Piece) :
    decodedPieces (p :: ps) = p.decoded ++ decodedPieces ps := by
  simp [decodedPieces]

/-- Fewer than four bytes hold no escape: the pieces are single bytes. -/
theorem decodedPieces_of_short : ∀ (ps : List Piece), (renderPieces ps).length < 4 →
    decodedPieces ps = renderPieces ps := by
  intro ps
  induction ps with
  | nil => intro _; rfl
  | cons p ps ih =>
    intro h
    rw [renderPieces_cons] at h
    rw [renderPieces_cons, decodedPieces_cons]
    cases p with
    | byte b =>
      rw [ih (by simp [Piece.render] at h; omega)]
      rfl
    | escape hh l =>
      simp [Piece.render] at h
      omega

/-- The scan over an input whose backslashes all start an escape to be decoded. -/
theorem Unescape.scan_decodable : ∀ (ps : List Piece) (doneRev : GoString),
    (∀ p ∈ ps, p.decodable = true) →
    doneRev.head? ≠ some 0x5c →
    (doneRev = [] → (renderPieces ps).head? ≠ some 0x22) →
    Unescape.scan (renderPieces ps) doneRev = .ok (doneRev.reverse ++ decodedPieces ps) := by
  intro ps
  induction ps with
  | nil => intro doneRev _ _ _; simp [renderPieces, decodedPieces, Unescape.scan]
  | cons p ps ih =>
    intro doneRev hall hprev hfirst
    have hall' : ∀ q ∈ ps, q.decodable = true := fun q hq => hall q (List.mem_cons_of_mem _ hq)
    have hp := hall p (List.mem_cons_self _ _)
    cases p with
    | byte b =>
      have hb : b ≠ 0x5c := by simpa [Piece.decodable] using hp
      rw [renderPieces_cons, decodedPieces_cons]
      show Unescape.scan (b :: renderPieces ps) doneRev = _
      by_cases hlen : (renderPieces ps).length < 3
      · rw [Unescape.scan_short _ doneRev (by simp; omega),
          decodedPieces_of_short ps (by omega)]
        rfl
      · have hnext : Unescape.scan (renderPieces ps) (b :: doneRev) =
            .ok (doneRev.reverse ++ ((Piece.byte b).decoded ++ decodedPieces ps)) := by
          rw [ih (b :: doneRev) hall' (by simpa using hb) (by simp)]
          simp [Piece.decoded]
        match hr : renderPieces ps, hlen with
        | [], h | [_], h | [_, _], h => exact absurd (by simp) h
        | c1 :: c2 :: c3 :: rest, _ =>
          rw [hr] at hnext
          conv_lhs => unfold Unescape.scan
          by_cases hq : b = 0x22
          · rw [if_pos hq]
            match doneRev, hprev, hfirst, hnext with
            | [], _, hfirst, _ =>
              exact absurd (by rw [renderPieces_cons]; simp [Piece.render, hq]) (hfirst rfl)
            | q :: before, hprev, _, hnext =>
              have hq' : q ≠ 0x5c := by simpa using hprev
              simp only
              rw [if_neg hq']
              exact hnext
          · rw [if_neg hq, if_neg hb]
            exact hnext
    | escape h l =>
      simp only [Piece.decodable, Bool.and_eq_true, decide_eq_true_eq] at hp
      obtain ⟨⟨⟨⟨⟨hh, hl⟩, h0⟩, h1⟩, h22⟩, h5c⟩ := hp
      obtain ⟨hparse, hlt⟩ := parseUintHex8_of_digits h l hh hl
      rw [renderPieces_cons, decodedPieces_cons]
      show Unescape.scan (0x5c :: 0x78 :: h :: l :: renderPieces ps) doneRev = _
      have hctl : ¬ ((h = 0x30 ∨ h = 0x31) ∨ (h = 0x32 ∧ l = 0x32) ∨ (h = 0x35 ∧ l = 0x43)) := by
        rintro ((rfl | rfl) | ⟨rfl, rfl⟩ | ⟨rfl, rfl⟩)
        · exact h0 rfl
        · exact h1 rfl
        · exact h22 (by decide)
        · exact h5c (by decide)
      conv_lhs => unfold Unescape.scan
      rw [if_neg (by decide), if_pos rfl, if_neg (by decide), if_neg (by decide), if_pos rfl,
        if_neg hctl, hparse]
      simp only
      rw [ih (UInt8.ofNat (hexValue h l) :: doneRev) hall'
        (by
          have := ofNat_ne_of_ne (hexValue h l) 0x5c hlt (by decide) h5c
          simpa using this)
        (by simp)]
      simp [Piece.decoded]


/-- C11: for every input made of bytes other than the backslash and of escapes `\xHL` with
two hex digits (upper or lower case) whose first digit is neither `0` nor `1` and whose
value is neither 0x22 nor 0x5C, and whose first byte is not a double quote, `Unescape`
returns the input with each escape replaced by the single byte of value `HL` and every
other byte unchanged and in order. (Every input is the sequence of its pieces, by
`renderPieces_toPieces`.) -/
theorem hex_escapes_decoded (ps : List Piece) (hall : ∀ p ∈ ps, p.decodable = true)
    (hfirst : (renderPieces ps).head? ≠ some 0x22) :
    Unescape (renderPieces ps) = .ok (decodedPieces ps) := by
  rw [Unescape_eq_scan, Unescape.scan_decodable ps [] hall (by simp) (fun _ => hfirst)]
  rfl

/-- Witness for C11: `{"field":"\xC3\xBCmlaut"}` becomes the UTF-8 text
`{"field":"ümlaut"}`. -/
theorem hex_escapes_decoded_witness :
    renderPieces piecesUmlaut = bytes "\x7b\"field\":\"\\xC3\\xBCmlaut\"\x7d" ∧
    decodedPieces piecesUmlaut = bytes "\x7b\"field\":\"ümlaut\"\x7d" ∧
    Unescape (renderPieces piecesUmlaut) = .ok (decodedPieces piecesUmlaut) :=
  ⟨by decide, by decide, hex_escapes_decoded piecesUmlaut (by decide) (by decide)⟩

theorem doubleBackslashes_cons (c : UInt8) (s : GoString) :
    doubleBackslashes (c :: s) =
      (if c = 0x5c then [0x5c, 0x5c] else [c]) ++ doubleBackslashes s := by
  simp [doubleBackslashes]

/-- Fewer than four bytes hold no escape, so there is no backslash to double. -/
theorem doubleBackslashes_of_short : ∀ (ps : List Piece), (∀ p ∈ ps, p.kept = true) →
    (renderPieces ps).length < 4 →
    doubleBackslashes (renderPieces ps) = renderPieces ps := by
  intro ps
  induction ps with
  | nil => intro _ _; rfl
  | cons p ps ih =>
    intro hall h
    rw [renderPieces_cons] at h ⊢
    cases p with
    | byte b =>
      have hb : b ≠ 0x5c := by simpa [Piece.kept] using hall _ (List.mem_cons_self _ _)
      show doubleBackslashes (b :: renderPieces ps) = b :: renderPieces ps
      rw [doubleBackslashes_cons, if_neg hb,
        ih (fun q hq => hall q (List.mem_cons_of_mem _ hq))
          (by simp [Piece.render] at h; omega)]
      rfl
    | escape hh l =>
      simp [Piece.render] at h
      omega

/-- The scan over an input whose backslashes all start an escape to be kept. -/
theorem Unescape.scan_kept : ∀ (ps : List Piece) (doneRev : GoString),
    (∀ p ∈ ps, p.kept = true) →
    doneRev.head? ≠ some 0x5c →
    (doneRev = [] → (renderPieces ps).head? ≠ some 0x22) →
    Unescape.scan (renderPieces ps) doneRev =
      .ok (doneRev.reverse ++ doubleBackslashes (renderPieces ps)) := by
  intro ps
  induction ps with
  | nil => intro doneRev _ _ _; simp [renderPieces, doubleBackslashes, Unescape.scan]
  | cons p ps ih =>
    intro doneRev hall hprev hfirst
    have hall' : ∀ q ∈ ps, q.kept = true := fun q hq => hall q (List.mem_cons_of_mem _ hq)
    have hp := hall p (List.mem_cons_self _ _)
    cases p with
    | byte b =>
      have hb : b ≠ 0x5c := by simpa [Piece.kept] using hp
      rw [renderPieces_cons]
      show Unescape.scan (b :: renderPieces ps) doneRev =
        .ok (doneRev.reverse ++ doubleBackslashes (b :: renderPieces ps))
      rw [doubleBackslashes_cons, if_neg hb]
      by_cases hlen : (renderPieces ps).length < 3
      · rw [Unescape.scan_short _ doneRev (by simp; omega),
          doubleBackslashes_of_short ps hall' (by omega)]
        rfl
      · have hnext : Unescape.scan (renderPieces ps) (b :: doneRev) =
            .ok (doneRev.reverse ++ ([b] ++ doubleBackslashes (renderPieces ps))) := by
          rw [ih (b :: doneRev) hall' (by simpa using hb) (by simp)]
          simp
        match hr : renderPieces ps, hlen with
        | [], h | [_], h | [_, _], h => exact absurd (by simp) h
        | c1 :: c2 :: c3 :: rest, _ =>
          rw [hr] at hnext
          conv_lhs => unfold Unescape.scan
          by_cases hq : b = 0x22
          · rw [if_pos hq]
            match doneRev, hprev, hfirst, hnext with
            | [], _, hfirst, _ =>
              exact absurd (by rw [renderPieces_cons]; simp [Piece.render, hq]) (hfirst rfl)
            | q :: before, hprev, _, hnext =>
              have hq' : q ≠ 0x5c := by simpa using hprev
              simp only
              rw [if_neg hq']
              exact hnext
          · rw [if_neg hq, if_neg hb]
            exact hnext
    | escape h l =>
      simp only [Piece.kept, Bool.and_eq_true, Bool.or_eq_true, decide_eq_true_eq] at hp
      obtain ⟨⟨hh, hl⟩, hctl⟩ := hp
      have hctl' : (h = 0x30 ∨ h = 0x31) ∨ (h = 0x32 ∧ l = 0x32) ∨ (h = 0x35 ∧ l = 0x43) := by
        tauto
      obtain ⟨hhb, hhq⟩ := (hexDigit_facts h).2 hh
      obtain ⟨hlb, hlq⟩ := (hexDigit_facts l).2 hl
      rw [renderPieces_cons]
      show Unescape.scan (0x5c :: 0x78 :: h :: l :: renderPieces ps) doneRev =
        .ok (doneRev.reverse ++ doubleBackslashes (0x5c :: 0x78 :: h :: l :: renderPieces ps))
      have hdouble : doubleBackslashes (0x5c :: 0x78 :: h :: l :: renderPieces ps) =
          0x5c :: 0x5c :: 0x78 :: h :: l :: doubleBackslashes (renderPieces ps) := by
        rw [doubleBackslashes_cons, if_pos rfl, doubleBackslashes_cons, if_neg (by decide),
          doubleBackslashes_cons, if_neg hhb, doubleBackslashes_cons, if_neg hlb]
        rfl
      have hplainb : (0x5c : UInt8) ∉ [0x78, h, l] := by
        simp only [List.mem_cons, List.mem_singleton, List.not_mem_nil, or_false, not_or]
        exact ⟨by decide, fun e => hhb e.symm, fun e => hlb e.symm⟩
      have hplainq : (0x22 : UInt8) ∉ [0x78, h, l] := by
        simp only [List.mem_cons, List.mem_singleton, List.not_mem_nil, or_false, not_or]
        exact ⟨by decide, fun e => hhq e.symm, fun e => hlq e.symm⟩
      conv_lhs => unfold Unescape.scan
      rw [if_neg (by decide), if_pos rfl, if_neg (by decide), if_neg (by decide), if_pos rfl,
        if_pos hctl', hdouble]
      by_cases hlen : (renderPieces ps).length < 3
      · have := Unescape.scan_plain_short [0x78, h, l] hplainb hplainq (renderPieces ps)
          (0x5c :: 0x5c :: doneRev) (by omega)
        rw [List.cons_append, List.cons_append, List.cons_append, List.nil_append] at this
        rw [this, doubleBackslashes_of_short ps hall' (by omega)]
        simp
      · have := Unescape.scan_plain_append [0x78, h, l] hplainb hplainq (renderPieces ps)
          (0x5c :: 0x5c :: doneRev) (by omega)
        rw [List.cons_append, List.cons_append, List.cons_append, List.nil_append] at this
        rw [this, ih _ hall' (by simpa using hlb) (by simp)]
        simp

/-- C12: for every input made of bytes other than the backslash and of escapes `\xHL` with
two hex digits that start with `0` or `1` or are exactly `22` or exactly `5C`, and whose
first byte is not a double quote, `Unescape` returns the input with every backslash
doubled and nothing else changed. (Every input is the sequence of its pieces, by
`renderPieces_toPieces`.) -/
theorem control_escapes_kept (ps : List Piece) (hall : ∀ p ∈ ps, p.kept = true)
    (hfirst : (renderPieces ps).head? ≠ some 0x22) :
    Unescape (renderPieces ps) = .ok (doubleBackslashes (renderPieces ps)) := by
  rw [Unescape_eq_scan, Unescape.scan_kept ps [] hall (by simp) (fun _ => hfirst)]
  rfl

/-- Witness for C12: `\x22hello` becomes `\\x22hello`. -/
theorem control_escapes_kept_witness :
    renderPieces piecesQuoteHello = bytes "\\x22hello" ∧
    doubleBackslashes (renderPieces piecesQuoteHello) = bytes "\\\\x22hello" ∧
    Unescape (renderPieces piecesQuoteHello) =
      .ok (doubleBackslashes (renderPieces piecesQuoteHello)) :=
  ⟨by decide, by decide, control_escapes_kept piecesQuoteHello (by decide) (by decide)⟩

/-! ## The transport writer and the shutdown decision -/

theorem writeLogsToUdp.loop_sent_initial (lib : Lib) (closed : Bool) :
    ∀ (queue : List (GoString × List GoString)) (sendErr : List Bool) (receives : Nat),
      (writeLogsToUdp.loop lib closed queue sendErr receives).sent <+: builtEnvelopes lib queue := by
  intro queue
  induction queue with
  | nil =>
    intro sendErr receives
    unfold writeLogsToUdp.loop
    cases closed <;> cases receives <;> simp [sendDone, builtEnvelopes]
  | cons q queue ih =>
    intro sendErr receives
    obtain ⟨line, order⟩ := q
    unfold writeLogsToUdp.loop
    cases hb : buildGelfMessage lib order line with
    | abort => simp
    | error =>
      simp only [builtEnvelopes, List.filterMap_cons, hb]
      exact ih sendErr receives
    | ok gm =>
      simp only [builtEnvelopes, List.filterMap_cons, hb]
      by_cases hf : sendErr.headD false = true
      · rw [if_pos hf]
        cases receives with
        | zero => simp [sendDone]
        | succ r =>
          simp only [sendDone]
          exact (List.prefix_cons_inj gm).2 (ih sendErr.tail r)
      · rw [if_neg hf]
        exact (List.prefix_cons_inj gm).2 (ih sendErr.tail receives)


theorem writeLogsToUdp.loop_all (lib : Lib) (closed : Bool) :
    ∀ (queue : List (GoString × List GoString)) (sendErr : List Bool) (receives : Nat),
      (∀ q ∈ queue, buildGelfMessage lib q.2 q.1 ≠ .abort) →
      (sendErr.take (builtEnvelopes lib queue).length).count true ≤ receives →
      (writeLogsToUdp.loop lib closed queue sendErr receives).sent =
        builtEnvelopes lib queue := by
  intro queue
  induction queue with
  | nil =>
    intro sendErr receives _ _
    unfold writeLogsToUdp.loop
    cases closed <;> cases receives <;> simp [sendDone, builtEnvelopes]
  | cons q queue ih =>
    intro sendErr receives hret hrecv
    obtain ⟨line, order⟩ := q
    have hret' : ∀ q ∈ queue, buildGelfMessage lib q.2 q.1 ≠ .abort :=
      fun q hq => hret q (List.mem_cons_of_mem _ hq)
    unfold writeLogsToUdp.loop
    cases hb : buildGelfMessage lib order line with
    | abort => exact absurd hb (hret (line, order) (List.mem_cons_self _ _))
    | error =>
      simp only [builtEnvelopes, List.filterMap_cons, hb] at hrecv ⊢
      exact ih sendErr receives hret' hrecv
    | ok gm =>
      simp only [builtEnvelopes, List.filterMap_cons, hb, List.length_cons] at hrecv ⊢
      cases sendErr with
      | nil =>
        simp only [List.headD_nil, Bool.false_eq_true, if_false, List.tail_nil]
        rw [ih [] receives hret' (by simp)]
        rfl
      | cons e es =>
        simp only [List.take_succ_cons, List.headD_cons, List.tail_cons] at hrecv ⊢
        cases e with
        | true =>
          rw [List.count_cons_self] at hrecv
          rw [if_pos rfl]
          cases receives with
          | zero => omega
          | succ r =>
            simp only [sendDone]
            rw [ih es r hret' (by simpa [builtEnvelopes] using Nat.le_of_succ_le_succ hrecv)]
            rfl
        | false =>
          rw [List.count_cons_of_ne (by decide)] at hrecv
          simp only [Bool.false_eq_true, if_false]
          rw [ih es receives hret' (by simpa [builtEnvelopes] using hrecv)]
          rfl

/-- C16, counterexample: three text lines `a`, `b`, `c` are queued, the transport fails on
the first two sends, and the other end of `done` takes one report, as `main` does. The
report of the first failure is taken, the report of the second is not, and the loop stays
blocked in `done <- err`: the envelope of `c` is never handed to the transport. -/
theorem writeLogsToUdp_blocks_on_second_failure :
    (writeLogsToUdp libNoJSON false false queueABC [true, true, false] 1).sent =
      [textEnvelope (bytes "a"), textEnvelope (bytes "b")] ∧
    (writeLogsToUdp libNoJSON false false queueABC [true, true, false] 1).state =
      .blockedOnDone ∧
    builtEnvelopes libNoJSON queueABC =
      [textEnvelope (bytes "a"), textEnvelope (bytes "b"), textEnvelope (bytes "c")] ∧
    (writeLogsToUdp libNoJSON false false queueABC [true, true, false] 1).sent ≠
      builtEnvelopes libNoJSON queueABC := by
  refine ⟨rfl, rfl, rfl, ?_⟩
  intro h
  have := congrArg List.length h
  revert this
  decide

/-- C16, amended: for every finite sequence of queued lines on each of which
`buildGelfMessage` returns (an envelope or an error) and every pattern of transport send
failures, the envelopes `writeLogsToUdp` hands to the transport are, in the same order, a
prefix of the envelopes `buildGelfMessage` returns for those lines with the lines whose
build returned an error omitted; and they are all of them when the other end of `done`
takes the report of every failed send. -/
theorem writeLogsToUdp_sends_in_order (lib : Lib) (closed : Bool)
    (queue : List (GoString × List GoString)) (sendErr : List Bool) (receives : Nat)
    (hret : ∀ q ∈ queue, buildGelfMessage lib q.2 q.1 ≠ .abort) :
    (writeLogsToUdp lib false closed queue sendErr receives).sent <+:
      builtEnvelopes lib queue ∧
    ((sendErr.take (builtEnvelopes lib queue).length).count true ≤ receives →
      (writeLogsToUdp lib false closed queue sendErr receives).sent =
        builtEnvelopes lib queue) := by
  unfold writeLogsToUdp
  simp only [Bool.false_eq_true, if_false]
  exact ⟨writeLogsToUdp.loop_sent_initial lib closed queue sendErr receives,
    writeLogsToUdp.loop_all lib closed queue sendErr receives hret⟩

/-- Witness for C16: the lines `a`, `b`, `c` with a failure on the second send, whose
report is taken. -/
theorem writeLogsToUdp_sends_in_order_witness :
    (writeLogsToUdp libNoJSON false false queueABC [false, true, false] 1).sent <+:
      builtEnvelopes libNoJSON queueABC ∧
    (writeLogsToUdp libNoJSON false false queueABC [false, true, false] 1).sent =
      builtEnvelopes libNoJSON queueABC :=
  ⟨(writeLogsToUdp_sends_in_order libNoJSON false queueABC [false, true, false] 1
      (fun q hq => by
        simp only [queueABC, List.mem_cons, List.mem_singleton, List.not_mem_nil,
          or_false] at hq
        rcases hq with rfl | rfl | rfl <;> exact fun h => by cases h)).1,
    (writeLogsToUdp_sends_in_order libNoJSON false queueABC [false, true, false] 1
      (fun q hq => by
        simp only [queueABC, List.mem_cons, List.mem_singleton, List.not_mem_nil,
          or_false] at hq
        rcases hq with rfl | rfl | rfl <;> exact fun h => by cases h)).2 (by decide)⟩

/-- C17, the code at an external signal: when the first event comes from `sigShutdown`,
`main` sends nothing on `savestate` before it returns; it requests the final save only
when the first event comes from `udpShutdown`. -/
theorem main_signal_requests_no_save :
    main .sigShutdown = [] ∧ main .udpShutdown = [true] ∧ main .fileShutdown = [] := by
  decide

end Log2Gelf
